import Mathlib

/-!
Verification of the niu post-minifier core.

This file gives a shallow embedding, in Lean, of the decision procedures of
the niu JavaScript minifier (identifier mangling, global hoisting, duplicate
literal hoisting, and the byte-cost profit calculator), together with
theorems settling the frozen claims about them.

Names are modelled as lists of characters (`Str`); each character of a
compact printed identifier or keyword counts as one byte, as the cost model
of the program assumes.
-/

set_option maxHeartbeats 1000000

namespace Niu

/-- Identifier / string contents are modelled as lists of characters. -/
abbrev Str := List Char

/-! ### The mangler alphabet and `indexToName` (src/src/index.ts) -/

/-- The mangler's ordered alphabet, `CHARS` in the source:
lowercase letters in English-frequency order, the same uppercase, `$`, `_`.
Its length is 54. -/
def chars54 : Str := "etaonirshldcumfpgwybvkxjqzETAONIRSHLDCUMFPGWYBVKXJQZ$_".toList

theorem chars54_length : chars54.length = 54 := by decide

/-- `CHARS[i] ?? ''` of the source; the callers only ever pass `i < 54`
(indices are taken mod the alphabet length), so the default is irrelevant. -/
def charAt (i : Nat) : Char := chars54.getD i 'e'

/-- The prefix-building loop of `indexToName` (the `while (remaining >= 0)`
loop).  The loop exits only through `break`; `fuel` is a structural bound on
the number of iterations, and callers pass enough fuel (the loop variable
strictly decreases, see `prefixBuild_eq_gPre`). -/
def prefixBuild (fuel : Nat) (remaining : Nat) (result : Str) : Str :=
  match fuel with
  | 0 => result
  | f + 1 =>
    if remaining < 54 then charAt remaining :: result
    else prefixBuild f (remaining / 54 - 1) (charAt (remaining % 54) :: result)

/-- `indexToName` of the source: index 0..53 map to single characters of the
alphabet; larger indices subtract the base and build a multi-character name,
last character first, dividing by the base (with the source's `- 1`
adjustment after the first division inside the loop). -/
def indexToName (index : Nat) : Str :=
  if index < 54 then [charAt index]
  else
    let remaining := index - 54
    prefixBuild (remaining + 1) (remaining / 54) [charAt (remaining % 54)]

/-- Closed-form companion of the prefix loop, used for reasoning. -/
def gPre (m : Nat) : Str :=
  if m < 54 then [charAt m]
  else gPre (m / 54 - 1) ++ [charAt (m % 54)]
termination_by m
decreasing_by
  have hm : 0 < m := by omega
  have : m / 54 < m := Nat.div_lt_self hm (by omega)
  omega

theorem gPre_lt {m : Nat} (h : m < 54) : gPre m = [charAt m] := by
  rw [gPre, if_pos h]

theorem gPre_ge {m : Nat} (h : ¬ m < 54) :
    gPre m = gPre (m / 54 - 1) ++ [charAt (m % 54)] := by
  rw [gPre, if_neg h]

theorem prefixBuild_eq_gPre (fuel r : Nat) (acc : Str) (h : r < fuel) :
    prefixBuild fuel r acc = gPre r ++ acc := by
  induction fuel generalizing r acc with
  | zero => omega
  | succ f ih =>
    rw [prefixBuild, gPre]
    by_cases hr : r < 54
    · simp [hr]
    · simp only [if_neg hr]
      have hrec : r / 54 - 1 < f := by
        have h0 : 0 < r := by omega
        have : r / 54 < r := Nat.div_lt_self h0 (by omega)
        omega
      rw [ih _ _ hrec, List.append_assoc]
      rfl

theorem indexToName_eq (i : Nat) :
    indexToName i =
      if i < 54 then [charAt i]
      else gPre ((i - 54) / 54) ++ [charAt ((i - 54) % 54)] := by
  by_cases h : i < 54
  · simp [indexToName, h]
  · simp only [indexToName, if_neg h]
    exact prefixBuild_eq_gPre _ _ _ (by have := Nat.div_le_self (i - 54) 54; omega)

theorem charAt_inj : ∀ i < 54, ∀ j < 54, charAt i = charAt j → i = j := by decide

theorem charAt_mem (i : Nat) (h : i < 54) : charAt i ∈ chars54 := by
  have hlen : i < chars54.length := by rw [chars54_length]; exact h
  rw [charAt, List.getD_eq_getElem _ _ hlen]
  exact List.getElem_mem hlen

theorem gPre_length_pos (m : Nat) : 0 < (gPre m).length := by
  rw [gPre]
  by_cases h : m < 54 <;> simp [h]

theorem gPre_length_ge_two (m : Nat) (h : ¬ m < 54) : 2 ≤ (gPre m).length := by
  rw [gPre, if_neg h]
  have := gPre_length_pos (m / 54 - 1)
  simp only [List.length_append, List.length_cons, List.length_nil]
  omega

theorem gPre_inj : ∀ m1 m2 : Nat, gPre m1 = gPre m2 → m1 = m2 := by
  intro m1
  induction m1 using Nat.strong_induction_on with
  | _ m1 ih =>
    intro m2 heq
    by_cases h1 : m1 < 54 <;> by_cases h2 : m2 < 54
    · rw [gPre_lt h1, gPre_lt h2] at heq
      exact charAt_inj m1 h1 m2 h2 (List.cons.injEq .. ▸ heq |>.1)
    · exfalso
      have hl : (gPre m1).length = (gPre m2).length := by rw [heq]
      rw [gPre_lt h1] at hl
      have := gPre_length_ge_two m2 h2
      simp only [List.length_cons, List.length_nil] at hl
      omega
    · exfalso
      have hl : (gPre m1).length = (gPre m2).length := by rw [heq]
      rw [gPre_lt h2] at hl
      have := gPre_length_ge_two m1 h1
      simp only [List.length_cons, List.length_nil] at hl
      omega
    · rw [gPre_ge h1, gPre_ge h2] at heq
      have hl : (gPre (m1 / 54 - 1)).length = (gPre (m2 / 54 - 1)).length := by
        have := congrArg List.length heq
        simp only [List.length_append, List.length_cons, List.length_nil] at this
        omega
      obtain ⟨hpre, hlast⟩ := List.append_inj heq hl
      have hdiv : m1 / 54 - 1 = m2 / 54 - 1 := by
        have hlt : m1 / 54 - 1 < m1 := by
          have h0 : 0 < m1 := by omega
          have := Nat.div_lt_self h0 (show 1 < 54 by omega)
          omega
        exact ih _ hlt _ hpre
      have hmod : m1 % 54 = m2 % 54 := by
        have hc : charAt (m1 % 54) = charAt (m2 % 54) := by
          simpa using hlast
        exact charAt_inj _ (Nat.mod_lt _ (by omega)) _ (Nat.mod_lt _ (by omega)) hc
      have hd1 : 1 ≤ m1 / 54 := (Nat.one_le_div_iff (by omega)).2 (by omega)
      have hd2 : 1 ≤ m2 / 54 := (Nat.one_le_div_iff (by omega)).2 (by omega)
      have : m1 / 54 = m2 / 54 := by omega
      omega

theorem indexToName_injective : ∀ i j : Nat, indexToName i = indexToName j → i = j := by
  intro i j heq
  rw [indexToName_eq, indexToName_eq] at heq
  by_cases hi : i < 54 <;> by_cases hj : j < 54
  · rw [if_pos hi, if_pos hj] at heq
    exact charAt_inj i hi j hj (List.cons.injEq .. ▸ heq |>.1)
  · exfalso
    rw [if_pos hi, if_neg hj] at heq
    have := congrArg List.length heq
    have := gPre_length_pos ((j - 54) / 54)
    simp only [List.length_cons, List.length_nil, List.length_append] at *
    omega
  · exfalso
    rw [if_neg hi, if_pos hj] at heq
    have := congrArg List.length heq
    have := gPre_length_pos ((i - 54) / 54)
    simp only [List.length_cons, List.length_nil, List.length_append] at *
    omega
  · rw [if_neg hi, if_neg hj] at heq
    have hl : (gPre ((i - 54) / 54)).length = (gPre ((j - 54) / 54)).length := by
      have := congrArg List.length heq
      simp only [List.length_append, List.length_cons, List.length_nil] at this
      omega
    obtain ⟨hpre, hlast⟩ := List.append_inj heq hl
    have hdiv := gPre_inj _ _ hpre
    have hmod : (i - 54) % 54 = (j - 54) % 54 := by
      have hc : charAt ((i - 54) % 54) = charAt ((j - 54) % 54) := by simpa using hlast
      exact charAt_inj _ (Nat.mod_lt _ (by omega)) _ (Nat.mod_lt _ (by omega)) hc
    have : i - 54 = j - 54 := by
      have := Nat.div_add_mod (i - 54) 54
      have := Nat.div_add_mod (j - 54) 54
      omega
    omega

/-! ### Valid JS identifiers (regex from the literal hoister source) -/

/-- First-character class of `VALID_IDENTIFIER_REGEX`, `[a-zA-Z_$]`. -/
def isIdentStart (c : Char) : Bool :=
  ('a' ≤ c && c ≤ 'z') || ('A' ≤ c && c ≤ 'Z') || c = '_' || c = '$'

/-- Tail-character class of `VALID_IDENTIFIER_REGEX`, `[a-zA-Z0-9_$]`. -/
def isIdentChar (c : Char) : Bool :=
  isIdentStart c || ('0' ≤ c && c ≤ '9')

/-- `isValidIdentifier` of the source: `/^[a-zA-Z_$][a-zA-Z0-9_$]*$/`. -/
def isValidIdentifier (s : Str) : Bool :=
  match s with
  | [] => false
  | c :: rest => isIdentStart c && rest.all isIdentChar

theorem chars54_identStart : ∀ c ∈ chars54, isIdentStart c = true := by decide

theorem gPre_mem_chars (m : Nat) : ∀ c ∈ gPre m, c ∈ chars54 := by
  induction m using Nat.strong_induction_on with
  | _ m ih =>
    intro c hc
    by_cases h : m < 54
    · rw [gPre_lt h] at hc
      simp only [List.mem_singleton] at hc
      exact hc ▸ charAt_mem m h
    · rw [gPre_ge h] at hc
      rcases List.mem_append.1 hc with h1 | h1
      · have hlt : m / 54 - 1 < m := by
          have : m / 54 < m := Nat.div_lt_self (by omega) (by omega)
          omega
        exact ih _ hlt c h1
      · simp only [List.mem_singleton] at h1
        exact h1 ▸ charAt_mem _ (Nat.mod_lt _ (by omega))

theorem indexToName_mem_chars (i : Nat) : ∀ c ∈ indexToName i, c ∈ chars54 := by
  intro c hc
  rw [indexToName_eq] at hc
  by_cases h : i < 54
  · rw [if_pos h] at hc
    simp only [List.mem_singleton] at hc
    exact hc ▸ charAt_mem i h
  · rw [if_neg h] at hc
    rcases List.mem_append.1 hc with h1 | h1
    · exact gPre_mem_chars _ c h1
    · simp only [List.mem_singleton] at h1
      exact h1 ▸ charAt_mem _ (Nat.mod_lt _ (by omega))

theorem indexToName_ne_nil (i : Nat) : indexToName i ≠ [] := by
  rw [indexToName_eq]
  by_cases h : i < 54
  · simp [h]
  · simp [h]

theorem indexToName_valid (i : Nat) : isValidIdentifier (indexToName i) = true := by
  rcases hn : indexToName i with _ | ⟨c, rest⟩
  · exact absurd hn (indexToName_ne_nil i)
  · have hmem : ∀ x ∈ indexToName i, x ∈ chars54 := indexToName_mem_chars i
    rw [hn] at hmem
    rw [isValidIdentifier]
    have hstart : isIdentStart c = true :=
      chars54_identStart c (hmem c (List.mem_cons_self c rest))
    have htail : rest.all isIdentChar = true := by
      rw [List.all_eq_true]
      intro x hx
      have := chars54_identStart x (hmem x (List.mem_cons_of_mem c hx))
      rw [isIdentChar, this, Bool.true_or]
    rw [hstart, htail, Bool.and_self]

/-! ### Name-length bounds and the placeholder substring -/

/-- `boundPow k` bounds the loop argument producing prefixes of length at
most `k`: `boundPow (k+1) = 54 * (boundPow k + 1)`. -/
def boundPow : Nat → Nat
  | 0 => 0
  | k + 1 => 54 * (boundPow k + 1)

theorem gPre_length_le (k : Nat) : ∀ m < boundPow k, (gPre m).length ≤ k := by
  induction k with
  | zero => intro m hm; simp [boundPow] at hm
  | succ k ih =>
    intro m hm
    by_cases h : m < 54
    · rw [gPre_lt h]; simp
    · rw [gPre_ge h]
      simp only [List.length_append, List.length_cons, List.length_nil]
      have hdivlt : m / 54 < boundPow k + 1 := by
        rw [Nat.div_lt_iff_lt_mul (by omega)]
        calc m < boundPow (k + 1) := hm
        _ = (boundPow k + 1) * 54 := by rw [boundPow]; ring
      have hk : boundPow k ≥ 1 ∨ boundPow k = 0 := by omega
      rcases hk with hk | hk
      · have := ih (m / 54 - 1) (by omega)
        omega
      · exfalso
        rw [boundPow, hk] at hm
        omega

theorem indexToName_length_le_five (i : Nat) (h : i < 467828514) :
    (indexToName i).length ≤ 5 := by
  rw [indexToName_eq]
  by_cases h54 : i < 54
  · simp [h54]
  · rw [if_neg h54]
    simp only [List.length_append, List.length_cons, List.length_nil]
    have hb : (i - 54) / 54 < boundPow 4 := by
      have : boundPow 4 = 8663490 := by decide
      rw [this, Nat.div_lt_iff_lt_mul (by omega)]
      omega
    have := gPre_length_le 4 _ hb
    omega

/-- The reserved placeholder marker `__niu_` as a character list. -/
def niuMark : Str := "__niu_".toList

/-- `s` starts with `__niu_` (the `oldName.startsWith('__niu_')` test). -/
def startsNiu (s : Str) : Bool := niuMark.isPrefixOf s

/-- `s` contains `__niu_` as a contiguous substring. -/
def containsNiu (s : Str) : Bool :=
  match s with
  | [] => false
  | c :: rest => niuMark.isPrefixOf (c :: rest) || containsNiu rest

theorem containsNiu_of_startsNiu {s : Str} (h : startsNiu s = true) :
    containsNiu s = true := by
  match s with
  | [] => simp [startsNiu, niuMark, List.isPrefixOf] at h
  | c :: rest =>
    rw [containsNiu]
    rw [startsNiu] at h
    rw [h, Bool.true_or]

theorem containsNiu_short {s : Str} (h : s.length < 6) : containsNiu s = false := by
  induction s with
  | nil => rfl
  | cons c rest ih =>
    rw [containsNiu]
    have h1 : niuMark.isPrefixOf (c :: rest) = false := by
      by_contra hc
      have hp : niuMark <+: (c :: rest) := by
        rw [← List.isPrefixOf_iff_prefix]
        revert hc
        cases niuMark.isPrefixOf (c :: rest) <;> simp
      have := hp.length_le
      simp only [List.length_cons] at *
      have : niuMark.length = 6 := by decide
      omega
    rw [h1, Bool.false_or]
    exact ih (by simp only [List.length_cons] at h; omega)

/-! ### The reserved-word list and the scoped name generator -/

/-- `RESERVED_WORDS` of the mangler source. -/
def reservedWords : List Str :=
  ["break".toList, "case".toList, "catch".toList, "continue".toList,
   "debugger".toList, "default".toList, "delete".toList, "do".toList,
   "else".toList, "finally".toList, "for".toList, "function".toList,
   "if".toList, "in".toList, "instanceof".toList, "new".toList,
   "return".toList, "switch".toList, "this".toList, "throw".toList,
   "try".toList, "typeof".toList, "var".toList, "void".toList,
   "while".toList, "with".toList, "class".toList, "const".toList,
   "enum".toList, "export".toList, "extends".toList, "import".toList,
   "super".toList, "implements".toList, "interface".toList, "let".toList,
   "package".toList, "private".toList, "protected".toList, "public".toList,
   "static".toList, "yield".toList, "null".toList, "true".toList,
   "false".toList, "undefined".toList, "NaN".toList, "Infinity".toList,
   "eval".toList, "arguments".toList]

/-- One call of the generator returned by `createScopedNameGenerator`: the
do/while loop advances the index past names in `RESERVED_WORDS` or in the
scope's reserved set (`bad`).  The loop always terminates in practice
because names at distinct indices are distinct; `fuel` bounds the
iterations structurally and callers pass a sufficient amount. -/
def nextFree (bad : List Str) : Nat → Nat → Str × Nat
  | 0, idx => (indexToName idx, idx + 1)
  | fuel + 1, idx =>
    let n := indexToName idx
    if n ∈ reservedWords ∨ n ∈ bad then nextFree bad fuel (idx + 1)
    else (n, idx + 1)

theorem nextFree_spec (bad : List Str) (fuel idx : Nat) :
    ∃ j, nextFree bad fuel idx = (indexToName j, j + 1) ∧ idx ≤ j ∧ j ≤ idx + fuel := by
  induction fuel generalizing idx with
  | zero => exact ⟨idx, rfl, Nat.le_refl _, by omega⟩
  | succ f ih =>
    rw [nextFree]
    by_cases h : indexToName idx ∈ reservedWords ∨ indexToName idx ∈ bad
    · simp only [if_pos h]
      obtain ⟨j, hj, hle, hub⟩ := ih (idx + 1)
      exact ⟨j, hj, by omega, by omega⟩
    · simp only [if_neg h]
      exact ⟨idx, rfl, Nat.le_refl _, by omega⟩

theorem indexToName_ne_a1 (i : Nat) : indexToName i ≠ ('a' :: '1' :: []) := by
  intro h
  have h1 : '1' ∈ indexToName i := by rw [h]; simp
  have h2 : '1' ∈ chars54 := indexToName_mem_chars i '1' h1
  revert h2
  decide

/-- C2 counterexample.  The claim says indices 0 through 54 each produce a
single-character name, but the alphabet has only 54 characters: index 54
already produces the two-character name `ee`. -/
theorem claim2_counterexample :
    indexToName 54 = ('e' :: 'e' :: []) ∧ (indexToName 54).length = 2 := by decide

/-- C2 (amended).  `indexToName` is injective, every produced name is a valid
JS identifier, the map is not onto the valid identifiers (`a1` is never
produced), and the first 54 indices (0 through 53) produce the
single-character names of the fixed alphabet `etaonirshldcumfpgwybvkxjqz`,
uppercase, `$`, `_`, in order. -/
theorem claim2_theorem :
    (∀ i j : Nat, indexToName i = indexToName j → i = j) ∧
    (∀ i : Nat, i < 54 → indexToName i = [chars54.getD i 'e']) ∧
    (∀ i : Nat, isValidIdentifier (indexToName i) = true) ∧
    (∀ i : Nat, indexToName i ≠ ('a' :: '1' :: [])) := by
  refine ⟨indexToName_injective, ?_, indexToName_valid, indexToName_ne_a1⟩
  intro i h
  rw [indexToName, if_pos h]
  rfl

/-- C2 witness: the amended theorem applied at concrete indices. -/
theorem claim2_witness :
    (5 : Nat) = 5 ∧ indexToName 3 = [chars54.getD 3 'e'] ∧
      isValidIdentifier (indexToName 200) = true :=
  ⟨claim2_theorem.1 5 5 rfl, claim2_theorem.2.1 3 (by omega), claim2_theorem.2.2.1 200⟩

/-- C10.  `indexToName` is injective, and consequently the scoped name
generator (which advances its index monotonically past each returned name)
never returns the same name on two successive calls: two generator draws,
the second starting from the state left by the first, give distinct names. -/
theorem claim10_theorem :
    (∀ i j : Nat, i ≠ j → indexToName i ≠ indexToName j) ∧
    (∀ (bad : List Str) (f1 f2 idx n1 n2 : Nat) (nm1 nm2 : Str),
      nextFree bad f1 idx = (nm1, n1) → nextFree bad f2 n1 = (nm2, n2) →
      nm1 ≠ nm2) := by
  constructor
  · intro i j hne heq
    exact hne (indexToName_injective i j heq)
  · intro bad f1 f2 idx n1 n2 nm1 nm2 h1 h2
    obtain ⟨j1, hj1, hle1, _⟩ := nextFree_spec bad f1 idx
    obtain ⟨j2, hj2, hle2, _⟩ := nextFree_spec bad f2 n1
    rw [hj1] at h1
    rw [hj2] at h2
    have hnm1 : nm1 = indexToName j1 := by
      have := congrArg Prod.fst h1; simpa using this.symm
    have hn1 : n1 = j1 + 1 := by
      have := congrArg Prod.snd h1; simpa using this.symm
    have hnm2 : nm2 = indexToName j2 := by
      have := congrArg Prod.fst h2; simpa using this.symm
    rw [hnm1, hnm2]
    intro heq
    have : j1 = j2 := indexToName_injective _ _ heq
    omega

/-- C10 witness: two successive generator draws from index 0 with no extra
reserved names give `e` then `t`, which are distinct. -/
theorem claim10_witness :
    indexToName 0 ≠ indexToName 1 ∧ (['e'] : Str) ≠ (['t'] : Str) :=
  ⟨claim10_theorem.1 0 1 (by omega),
   claim10_theorem.2 [] 1 1 0 1 2 ['e'] ['t'] (by decide) (by decide)⟩

/-! ### The profit calculator (src/utils/profitCalculator.ts) -/

/-- Source byte length of one character inside a JSON-quoted string
(`JSON.stringify` escaping): quote and backslash become two bytes, the short
control escapes two bytes, other control characters six (`\uXXXX`), and
everything else one byte. -/
def escLen (c : Char) : Nat :=
  if c = '"' ∨ c = '\\' then 2
  else if c = (Char.ofNat 8) ∨ c = '\t' ∨ c = '\n' ∨ c = (Char.ofNat 12) ∨ c = '\r' then 2
  else if c.toNat < 32 then 6
  else 1

/-- `JSON.stringify(value).length` for a string value: two quotes plus the
escaped length of each character. -/
def jsonLen (s : Str) : Nat := 2 + (s.map escLen).sum

/-- `getDeclarationCost`: first declarator costs `6 + id + 1 + R`
(`const X=V`), each subsequent one `1 + id + 1 + R` (`,X=V`). -/
def getDeclarationCost (valueReprLength identifierLength : Int) (isFirst : Bool) : Int :=
  if isFirst then 6 + identifierLength + 1 + valueReprLength
  else 1 + identifierLength + 1 + valueReprLength

/-- `calculateLiteralProfit`: original inline cost minus declaration cost
plus reference cost. -/
def calculateLiteralProfit (occurrences literalReprLength identifierLength : Int)
    (isFirst : Bool) : Int :=
  let originalCost := occurrences * literalReprLength
  let declarationCost := getDeclarationCost literalReprLength identifierLength isFirst
  let referenceCost := occurrences * identifierLength
  let newCost := declarationCost + referenceCost
  originalCost - newCost

/-- `isPropertyAccessProfitable`: `.name` beats `[a]` per occurrence only
when `name.length > 1 + identifierLength`. -/
def isPropertyAccessProfitable (propertyName : Str) (identifierLength : Nat) : Bool :=
  propertyName.length > 1 + identifierLength

/-- `isObjectPropertyProfitable`: `name` beats `[a]` as a key only when
`name.length > 2 + identifierLength`. -/
def isObjectPropertyProfitable (propertyName : Str) (identifierLength : Nat) : Bool :=
  propertyName.length > 2 + identifierLength

/-- Usage counts of a string value: literal, dot-access and identifier-key
occurrences. -/
structure UsageCounts where
  literalCount : Nat
  propertyAccessCount : Nat
  objectPropertyCount : Nat
deriving DecidableEq

/-- Result record of `calculateSelectiveStringProfit`.  The JS `-Infinity`
profit is modelled as `none`. -/
structure SelectiveProfit where
  profit : Option Int
  hoistLiterals : Bool
  hoistPropertyAccess : Bool
  hoistObjectProperties : Bool
deriving DecidableEq

/-- `calculateSelectiveStringProfit`: zero the category counts whose
per-occurrence gate fails, require an effective total of at least 2, and
compare original and new costs of the included categories only. -/
def calculateSelectiveStringProfit (usage : UsageCounts) (value : Str)
    (identifierLength : Nat) (isFirst : Bool) : SelectiveProfit :=
  let literalCount := usage.literalCount
  let propertyAccessCount := usage.propertyAccessCount
  let objectPropertyCount := usage.objectPropertyCount
  let stringReprLength := jsonLen value
  let paGate := isPropertyAccessProfitable value identifierLength
  let opGate := isObjectPropertyProfitable value identifierLength
  let effectiveLiteralCount := literalCount
  let effectivePropertyAccessCount := if paGate then propertyAccessCount else 0
  let effectiveObjectPropertyCount := if opGate then objectPropertyCount else 0
  let effectiveTotal :=
    effectiveLiteralCount + effectivePropertyAccessCount + effectiveObjectPropertyCount
  if effectiveTotal < 2 then
    ⟨none, false, false, false⟩
  else
    let originalCost : Int :=
      (effectiveLiteralCount * stringReprLength : Nat) +
        (if paGate then (propertyAccessCount * (1 + value.length) : Nat) else 0) +
        (if opGate then (objectPropertyCount * value.length : Nat) else 0)
    let declarationCost :=
      getDeclarationCost (stringReprLength : Int) (identifierLength : Int) isFirst
    let newCost : Int :=
      declarationCost +
        (effectiveLiteralCount * identifierLength : Nat) +
        (if paGate then (propertyAccessCount * (2 + identifierLength) : Nat) else 0) +
        (if opGate then (objectPropertyCount * (2 + identifierLength) : Nat) else 0)
    ⟨some (originalCost - newCost),
     effectiveLiteralCount > 0,
     paGate && propertyAccessCount > 0,
     opGate && objectPropertyCount > 0⟩

/-- C9.  For integers `R ≥ 0`, `id ≥ 1`, `n ≥ 0`: the declaration cost is
`6 + id + 1 + R` for the first declarator and `1 + id + 1 + R` otherwise,
and the literal hoist profit equals `n*R - D(R,id,F) - n*id`. -/
theorem claim9_theorem (R id n : Int) (hR : 0 ≤ R) (hid : 1 ≤ id) (hn : 0 ≤ n) :
    getDeclarationCost R id true = 6 + id + 1 + R ∧
    getDeclarationCost R id false = 1 + id + 1 + R ∧
    (∀ F : Bool, calculateLiteralProfit n R id F =
      n * R - getDeclarationCost R id F - n * id) := by
  refine ⟨rfl, rfl, fun F => ?_⟩
  rw [calculateLiteralProfit]
  ring

/-- C9 witness: the theorem applied at `R = 7`, `id = 1`, `n = 5` (the
worked example of the source comments: profit 15 on the first declarator). -/
theorem claim9_witness :
    getDeclarationCost 7 1 true = 15 ∧
    calculateLiteralProfit 5 7 1 true = 5 * 7 - getDeclarationCost 7 1 true - 5 * 1 := by
  have h := claim9_theorem 7 1 5 (by omega) (by omega) (by omega)
  exact ⟨by rw [h.1]; decide, h.2.2 true⟩

/-- C7.  `calculateSelectiveStringProfit` zeroes the property-access count
unless `L > 1 + id`, zeroes the object-key count unless `L > 2 + id`;
when the remaining effective count is below 2 it returns all hoist flags
false with profit `-Infinity` (modelled `none`); otherwise the profit is the
original cost of the included categories minus their new cost minus one
declaration cost. -/
theorem claim7_theorem (usage : UsageCounts) (value : Str) (id : Nat) (first : Bool)
    (effP effK : Nat)
    (hP : effP = if 1 + id < value.length then usage.propertyAccessCount else 0)
    (hK : effK = if 2 + id < value.length then usage.objectPropertyCount else 0) :
    (usage.literalCount + effP + effK < 2 →
      calculateSelectiveStringProfit usage value id first = ⟨none, false, false, false⟩) ∧
    (2 ≤ usage.literalCount + effP + effK →
      (calculateSelectiveStringProfit usage value id first).profit =
        some (((usage.literalCount * jsonLen value + effP * (1 + value.length)
                  + effK * value.length : Nat) : Int) -
              ((usage.literalCount * id + effP * (2 + id) + effK * (2 + id) : Nat) : Int) -
              getDeclarationCost (jsonLen value) id first)) := by
  subst hP
  subst hK
  constructor
  · intro hlt
    by_cases h1 : 1 + id < value.length <;> by_cases h2 : 2 + id < value.length <;>
    · simp only [h1, h2, if_true, if_false] at hlt
      rw [calculateSelectiveStringProfit]
      simp only [isPropertyAccessProfitable, isObjectPropertyProfitable, gt_iff_lt,
        decide_eq_true_eq]
      rw [if_pos (by simp [h1, h2]; omega)]
  · intro hge
    by_cases h1 : 1 + id < value.length <;> by_cases h2 : 2 + id < value.length <;>
    · simp only [h1, h2, if_true, if_false] at hge
      rw [calculateSelectiveStringProfit]
      simp only [isPropertyAccessProfitable, isObjectPropertyProfitable, gt_iff_lt,
        decide_eq_true_eq]
      rw [if_neg (by simp [h1, h2]; omega)]
      simp only [h1, h2, if_true, if_false]
      push_cast
      congr 1
      ring

/-- C7 witness: a string of length 9 used once as a literal and twice as dot
access, `id = 1`: both the branch equation and the profit formula at
concrete values. -/
theorem claim7_witness :
    (calculateSelectiveStringProfit ⟨1, 2, 0⟩ "something".toList 1 false).profit =
      some (((1 * jsonLen "something".toList + 2 * (1 + 9) + 0 * 9 : Nat) : Int) -
            ((1 * 1 + 2 * (2 + 1) + 0 * (2 + 1) : Nat) : Int) -
            getDeclarationCost (jsonLen "something".toList) 1 false) := by
  have h := claim7_theorem ⟨1, 2, 0⟩ "something".toList 1 false 2 0 (by decide) (by decide)
  have := h.2 (by decide)
  simpa using this

/-! ### Delimiter search and split-packed emission (hoistDuplicateLiterals) -/

/-- `needsEscaping` of the source: characters that trigger escapes in a JS
string literal and therefore cannot serve as delimiters. -/
def needsEscaping (c : Char) : Bool :=
  c = '"' || c = Char.ofNat 39 || c = '\\' ||
    c.toNat = 0x0a || c.toNat = 0x0d || c.toNat = 0x2028 || c.toNat = 0x2029

/-- The preferred-delimiter string of `findDelimiter`, in source order:
comma, semicolon, colon, pipe, bang, at, hash, dollar, percent, caret,
ampersand, star, tilde, backtick, angle brackets, question mark, slash,
dash, underscore, equals, plus, dot, parentheses, square and curly
brackets. -/
def preferredDelims : List Char :=
  [',', ';', ':', '|', '!', '@', '#', '$', '%', '^', '&', '*', '~',
   Char.ofNat 96, '<', '>', '?', '/', '-', '_', '=', '+', '.',
   '(', ')', '[', ']', Char.ofNat 123, Char.ofNat 125]

/-- The printable ASCII candidates of the fallback loop, codes 32 to 126. -/
def printableAscii : List Char := (List.range' 32 95).map Char.ofNat

/-- `allChars.has(c)` of the source: `c` occurs in at least one of the
strings. -/
def occursInAny (c : Char) (strings : List Str) : Bool :=
  strings.any (fun s => c ∈ s)

/-- `findDelimiter`: first preferred delimiter occurring in none of the
strings, else the first printable ASCII character that needs no escaping
and occurs in none, else `none` (fall back to `const` declarations). -/
def findDelimiter (strings : List Str) : Option Char :=
  match preferredDelims.find? (fun d => !occursInAny d strings) with
  | some d => some d
  | none => printableAscii.find? (fun c => !needsEscaping c && !occursInAny c strings)

/-- `isSplitProfitable`: the tuned threshold of seven string bindings. -/
def isSplitProfitable (stringCount : Nat) : Bool := stringCount ≥ 7

/-- `Array.prototype.join(delimiter)` on string values. -/
def joinWith (sep : Str) : List Str → Str
  | [] => []
  | [s] => s
  | s :: rest => s ++ sep ++ joinWith sep rest

/-- The statement shape emitted for the hoisted string bindings: either one
`let [a,b,…]="v1Dv2…".split("D")` or one multi-declarator `const`. -/
inductive StringEmission where
  | splitPacked (d : Char) (names : List Str) (joined : Str)
  | constDecl (bindings : List (Str × Str))
deriving DecidableEq

/-- The emission decision of `hoistDuplicateLiterals` for its string
bindings: split-packing is used iff at least 7 bindings exist and a
delimiter was found. -/
def emitStringBindings (bindings : List (Str × Str)) : StringEmission :=
  let values := bindings.map Prod.snd
  let delimiter : Option Char :=
    if bindings.length > 0 then findDelimiter values else none
  match delimiter, isSplitProfitable bindings.length with
  | some d, true =>
    .splitPacked d (bindings.map Prod.fst) (joinWith [d] values)
  | _, _ => .constDecl bindings

/-- Escaped length of a string body (without the enclosing quotes). -/
def escSum (s : Str) : Nat := (s.map escLen).sum

theorem jsonLen_eq_escSum (s : Str) : jsonLen s = 2 + escSum s := rfl

theorem escSum_append (a b : Str) : escSum (a ++ b) = escSum a + escSum b := by
  simp [escSum]

/-- Compact printed byte length of one declarator `X="v"`.  Modelled from
the spec's cost model for the external printer (double-quoted strings with
JSON-style escaping, no extra whitespace). -/
def declaratorLen (name value : Str) : Nat := name.length + 1 + jsonLen value

/-- Compact printed byte length of `const X0="s0",X1="s1",…`.  Modelled from
the spec's cost model for the external printer. -/
def constStmtLen (bindings : List (Str × Str)) : Nat :=
  6 + ((bindings.map fun p => declaratorLen p.1 p.2).sum + (bindings.length - 1))

/-- Compact printed byte length of `let [X0,X1,…]="s0Ds1D…".split("D")`.
Modelled from the spec's cost model for the external printer. -/
def splitStmtLen (bindings : List (Str × Str)) (d : Char) : Nat :=
  4 + 1 + ((bindings.map fun p => p.1.length).sum + (bindings.length - 1)) + 1 + 1 +
    jsonLen (joinWith [d] (bindings.map Prod.snd)) + 7 + jsonLen [d] + 1

theorem joinWith_escSum (d : Char) (vs : List Str) :
    vs ≠ [] →
    escSum (joinWith [d] vs) = (vs.map escSum).sum + (vs.length - 1) * escLen d := by
  induction vs with
  | nil => intro h; exact absurd rfl h
  | cons v rest ih =>
    intro _
    cases rest with
    | nil => simp [joinWith]
    | cons w rest2 =>
      have hrw : joinWith [d] (v :: w :: rest2) = v ++ [d] ++ joinWith [d] (w :: rest2) := rfl
      rw [hrw, escSum_append, escSum_append, ih (by simp)]
      have hd : escSum [d] = escLen d := by simp [escSum]
      rw [hd]
      simp only [List.map_cons, List.sum_cons, List.length_cons]
      have hmul : (rest2.length + 1 + 1 - 1) * escLen d =
          (rest2.length + 1 - 1) * escLen d + escLen d := by
        have h1 : rest2.length + 1 + 1 - 1 = (rest2.length + 1 - 1) + 1 := by omega
        rw [h1, Nat.succ_mul]
      omega

theorem declarator_sum (bindings : List (Str × Str)) :
    (bindings.map fun p => declaratorLen p.1 p.2).sum =
      (bindings.map fun p => p.1.length).sum + 3 * bindings.length +
        ((bindings.map Prod.snd).map escSum).sum := by
  induction bindings with
  | nil => rfl
  | cons b rest ih =>
    simp only [List.map_cons, List.sum_cons, List.length_cons, ih]
    rw [declaratorLen, jsonLen_eq_escSum]
    ring

theorem preferredDelims_escLen : ∀ c ∈ preferredDelims, escLen c = 1 := by decide

theorem printableAscii_ge32 : ∀ c ∈ printableAscii, 32 ≤ c.toNat := by decide

theorem escLen_of_printable (c : Char) (h32 : 32 ≤ c.toNat)
    (hesc : needsEscaping c = false) : escLen c = 1 := by
  rw [needsEscaping] at hesc
  simp only [Bool.or_eq_false_iff, decide_eq_false_iff_not] at hesc
  rw [escLen]
  rw [if_neg (by push_neg; exact ⟨hesc.1.1.1.1.1.1, hesc.1.1.1.1.2⟩)]
  rw [if_neg ?hctl]
  · rw [if_neg (by omega)]
  case hctl =>
    push_neg
    refine ⟨?_, ?_, ?_, ?_, ?_⟩ <;> intro heq <;> subst heq <;> simp_all <;> omega

theorem findDelimiter_escLen (strings : List Str) (d : Char)
    (h : findDelimiter strings = some d) :
    escLen d = 1 ∧ occursInAny d strings = false := by
  rw [findDelimiter] at h
  rcases hp : preferredDelims.find? (fun x => !occursInAny x strings) with _ | e
  · rw [hp] at h
    have hmem := List.mem_of_find?_eq_some h
    have hpred := List.find?_some h
    simp only [Bool.and_eq_true, Bool.not_eq_true'] at hpred
    refine ⟨escLen_of_printable d (printableAscii_ge32 d hmem) hpred.1, hpred.2⟩
  · rw [hp] at h
    cases h
    have hmem := List.mem_of_find?_eq_some hp
    have hpred := List.find?_some hp
    simp only [Bool.not_eq_true'] at hpred
    exact ⟨preferredDelims_escLen d hmem, hpred⟩

theorem split_beats_const (bindings : List (Str × Str)) (d : Char)
    (h7 : 7 ≤ bindings.length) (hd : escLen d = 1) :
    splitStmtLen bindings d < constStmtLen bindings := by
  have hne : bindings.map Prod.snd ≠ [] := by
    intro h
    rw [List.map_eq_nil_iff] at h
    subst h
    simp at h7
  rw [splitStmtLen, constStmtLen, declarator_sum, jsonLen_eq_escSum,
    joinWith_escSum d _ hne, hd, jsonLen_eq_escSum]
  have hlen : (bindings.map Prod.snd).length = bindings.length := List.length_map _ _
  rw [hlen]
  have hdsum : escSum [d] = escLen d := by simp [escSum]
  rw [hdsum, hd]
  set sid := (bindings.map fun p => p.1.length).sum with hsid
  set sesc := ((bindings.map Prod.snd).map escSum).sum with hsesc
  omega


theorem find?_first {α : Type} (p : α → Bool) (l : List α) (a : α)
    (h : l.find? p = some a) :
    ∃ pre post, l = pre ++ a :: post ∧ (∀ x ∈ pre, p x = false) ∧ p a = true := by
  induction l with
  | nil => simp [List.find?] at h
  | cons b rest ih =>
    rw [List.find?] at h
    rcases hb : p b with _ | _
    · rw [hb] at h
      simp only at h
      obtain ⟨pre, post, hsplit, hpre, hpa⟩ := ih h
      exact ⟨b :: pre, post, by rw [hsplit]; rfl,
        fun x hx => by
          rcases List.mem_cons.1 hx with hx | hx
          · exact hx ▸ hb
          · exact hpre x hx, hpa⟩
    · rw [hb] at h
      simp only [Option.some_inj] at h
      exact ⟨[], rest, by simp [h], by simp, h ▸ hb⟩

/-- C8.  The delimiter is the first character of the preference string
occurring in none of the strings; if all of those occur, the first printable
ASCII character (codes 32 to 126) that is not an escape trigger and occurs
in none; and if no such character exists, split-packing is disabled and the
multi-declarator `const` emission is used. -/
theorem claim8_theorem (strings : List Str) :
    (∀ d, findDelimiter strings = some d →
      (∃ pre post, preferredDelims = pre ++ d :: post ∧
        (∀ x ∈ pre, occursInAny x strings = true) ∧
        occursInAny d strings = false) ∨
      ((∀ x ∈ preferredDelims, occursInAny x strings = true) ∧
       (∃ pre post, printableAscii = pre ++ d :: post ∧
         (∀ x ∈ pre, needsEscaping x = true ∨ occursInAny x strings = true) ∧
         needsEscaping d = false ∧ occursInAny d strings = false))) ∧
    (findDelimiter strings = none →
      ∀ bindings : List (Str × Str), bindings.map Prod.snd = strings →
        emitStringBindings bindings = .constDecl bindings) := by
  constructor
  · intro d h
    rw [findDelimiter] at h
    rcases hp : preferredDelims.find? (fun x => !occursInAny x strings) with _ | e
    · rw [hp] at h
      right
      constructor
      · intro x hx
        have := List.find?_eq_none.1 hp x hx
        simpa using this
      · obtain ⟨pre, post, hsplit, hpre, hpa⟩ := find?_first _ _ _ h
        refine ⟨pre, post, hsplit, ?_, ?_, ?_⟩
        · intro x hx
          have := hpre x hx
          simp only [Bool.and_eq_false_iff, Bool.not_eq_false] at this
          rcases this with h1 | h1
          · left; simpa using h1
          · right; simpa using h1
        · have := hpa
          simp only [Bool.and_eq_true, Bool.not_eq_true'] at this
          exact this.1
        · have := hpa
          simp only [Bool.and_eq_true, Bool.not_eq_true'] at this
          exact this.2
    · rw [hp] at h
      cases h
      left
      obtain ⟨pre, post, hsplit, hpre, hpa⟩ := find?_first _ _ _ hp
      refine ⟨pre, post, hsplit, ?_, by simpa using hpa⟩
      intro x hx
      have := hpre x hx
      simpa using this
  · intro h bindings hb
    rw [emitStringBindings]
    simp only [hb]
    by_cases hlen : bindings.length > 0
    · rw [if_pos hlen, h]
    · rw [if_neg hlen]

/-- The string holding every printable ASCII character, which defeats both
delimiter searches. -/
def allPrintable : Str := printableAscii

/-- C8 witness: with a bound string containing every printable ASCII
character no delimiter exists, and the emission falls back to the
multi-declarator `const` form. -/
theorem claim8_witness :
    emitStringBindings
        [(['e'], allPrintable), (['t'], allPrintable), (['a'], allPrintable),
         (['o'], allPrintable), (['n'], allPrintable), (['i'], allPrintable),
         (['r'], allPrintable)] =
      .constDecl
        [(['e'], allPrintable), (['t'], allPrintable), (['a'], allPrintable),
         (['o'], allPrintable), (['n'], allPrintable), (['i'], allPrintable),
         (['r'], allPrintable)] :=
  (claim8_theorem [allPrintable, allPrintable, allPrintable, allPrintable,
      allPrintable, allPrintable, allPrintable]).2 (by decide) _ rfl

/-- C3.  The split-packed form is emitted only when there are at least 7
string bindings and a delimiter occurring in none of the strings exists,
and whenever it is emitted its literally computed byte cost beats the cost
of the equivalent multi-declarator `const` statement; in every other case
the multi-declarator `const` form is emitted. -/
theorem claim3_theorem (bindings : List (Str × Str)) :
    (∀ d names joined, emitStringBindings bindings = .splitPacked d names joined →
      7 ≤ bindings.length ∧
      findDelimiter (bindings.map Prod.snd) = some d ∧
      occursInAny d (bindings.map Prod.snd) = false ∧
      splitStmtLen bindings d < constStmtLen bindings) ∧
    (bindings.length < 7 ∨ findDelimiter (bindings.map Prod.snd) = none →
      emitStringBindings bindings = .constDecl bindings) := by
  constructor
  · intro d names joined h
    rw [emitStringBindings] at h
    by_cases hlen : bindings.length > 0
    · rw [if_pos hlen] at h
      rcases hfd : findDelimiter (bindings.map Prod.snd) with _ | e
      · rw [hfd] at h
        simp at h
      · rw [hfd] at h
        rcases hsp : isSplitProfitable bindings.length with _ | _
        · rw [hsp] at h
          simp at h
        · rw [hsp] at h
          simp only [StringEmission.splitPacked.injEq] at h
          obtain ⟨hde, _, _⟩ := h
          have h7 : 7 ≤ bindings.length := by
            have := hsp
            rw [isSplitProfitable] at this
            simpa using this
          obtain ⟨hesc, hocc⟩ := findDelimiter_escLen _ _ hfd
          exact ⟨h7, by rw [hde], hde ▸ hocc, hde ▸ split_beats_const bindings e h7 hesc⟩
    · rw [if_neg hlen] at h
      simp at h
  · intro h
    rw [emitStringBindings]
    by_cases hlen : bindings.length > 0
    · rw [if_pos hlen]
      rcases h with h | h
      · have hsp : isSplitProfitable bindings.length = false := by
          rw [isSplitProfitable]
          simpa using h
        rcases hfd : findDelimiter (bindings.map Prod.snd) with _ | e
        · rfl
        · rw [hsp]
      · rw [h]
    · rw [if_neg hlen]

/-- C3 witness: seven string bindings of short distinct values are emitted
split-packed with delimiter comma, at least 7 bindings, and a split cost
strictly below the `const` cost. -/
theorem claim3_witness :
    7 ≤ ([(['e'], ['a']), (['t'], ['b']), (['a'], ['c']), (['o'], ['d']),
          (['n'], ['f']), (['i'], ['g']), (['r'], ['h'])] : List (Str × Str)).length ∧
    findDelimiter ([(['e'], ['a']), (['t'], ['b']), (['a'], ['c']), (['o'], ['d']),
          (['n'], ['f']), (['i'], ['g']), (['r'], ['h'])].map Prod.snd) = some ',' ∧
    occursInAny ',' ([(['e'], ['a']), (['t'], ['b']), (['a'], ['c']), (['o'], ['d']),
          (['n'], ['f']), (['i'], ['g']), (['r'], ['h'])].map Prod.snd) = false ∧
    splitStmtLen [(['e'], ['a']), (['t'], ['b']), (['a'], ['c']), (['o'], ['d']),
          (['n'], ['f']), (['i'], ['g']), (['r'], ['h'])] ',' <
      constStmtLen [(['e'], ['a']), (['t'], ['b']), (['a'], ['c']), (['o'], ['d']),
          (['n'], ['f']), (['i'], ['g']), (['r'], ['h'])] :=
  (claim3_theorem _).1 ','
    [['e'], ['t'], ['a'], ['o'], ['n'], ['i'], ['r']]
    (joinWith [','] [['a'], ['b'], ['c'], ['d'], ['f'], ['g'], ['h']])
    (by decide)

/-! ### The global hoister (hoistGlobals) -/

/-- Expressions, as far as the global hoister inspects them: identifiers,
member expressions with a `computed` flag, `typeof`, and other leaves
(string literals stand in for any non-identifier leaf). -/
inductive JsExpr where
  | ident (name : Str)
  | member (obj : JsExpr) (computed : Bool) (prop : JsExpr)
  | typeofExpr (arg : JsExpr)
  | strLit (s : Str)
deriving DecidableEq

/-- `RESERVED_KEYWORDS` of the global hoister: contextual keywords Babel may
report as globals but that must never be hoisted. -/
def reservedKeywords : List Str :=
  ["arguments".toList, "this".toList, "super".toList, "undefined".toList,
   "NaN".toList, "Infinity".toList, "null".toList, "true".toList, "false".toList]

/-- All identifier occurrences that are the argument of a `typeof`
expression (`isTypeofArgument`), collected over one traversal. -/
def collectTypeof : JsExpr → List Str
  | .ident _ => []
  | .strLit _ => []
  | .typeofExpr a =>
    (match a with
     | .ident n => [n]
     | _ => []) ++ collectTypeof a
  | .member o _ p => collectTypeof o ++ collectTypeof p

/-- The contribution of a member expression's object position: its name if
it is an identifier outside the contextual-keyword list
(`isMemberExpressionObject` does not inspect the `computed` flag). -/
def objHead : JsExpr → List Str
  | .ident n => if n ∈ reservedKeywords then [] else [n]
  | _ => []

/-- All identifier occurrences that are the object of a member expression
and whose name is not a reserved contextual keyword — the `pendingRefs`
collection. -/
def collectMemberObjs : JsExpr → List Str
  | .ident _ => []
  | .strLit _ => []
  | .typeofExpr a => collectMemberObjs a
  | .member o _ p => objHead o ++ collectMemberObjs o ++ collectMemberObjs p

/-- Identifier occurrences that are the object of a dot-access (non-computed)
member expression, with a name outside the contextual-keyword list.  This is
the claim's `dotObjectUses` notion, written from the spec's words for
comparison with the source's `collectMemberObjs`. -/
def collectDotObjs : JsExpr → List Str
  | .ident _ => []
  | .strLit _ => []
  | .typeofExpr a => collectDotObjs a
  | .member o c p =>
    (if c then [] else objHead o) ++ collectDotObjs o ++ collectDotObjs p

theorem objHead_not_reserved (o : JsExpr) : ∀ x ∈ objHead o, x ∉ reservedKeywords := by
  rcases o with nm | _ | _ | _
  · intro x hx
    rw [objHead] at hx
    by_cases hr : nm ∈ reservedKeywords
    · rw [if_pos hr] at hx
      exact absurd hx (by simp)
    · rw [if_neg hr] at hx
      simp only [List.mem_singleton] at hx
      exact hx ▸ hr
  all_goals intro x hx; exact absurd hx (by simp [objHead])

/-- One collector applied to every statement of the program body. -/
def progCollect (f : JsExpr → List Str) : List JsExpr → List Str
  | [] => []
  | e :: rest => f e ++ progCollect f rest

/-- Occurrences of `n` in `l`. -/
def countOf (l : List Str) (n : Str) : Nat := l.countP (fun m => decide (m = n))

/-- Number of member-expression-object occurrences of `g` (computed or not). -/
def memberObjectCount (prog : List JsExpr) (g : Str) : Nat :=
  countOf (progCollect collectMemberObjs prog) g

/-- Number of dot-access-object occurrences of `g` — the claim's count. -/
def dotObjectCount (prog : List JsExpr) (g : Str) : Nat :=
  countOf (progCollect collectDotObjs prog) g

/-- The keys of the insertion-ordered `globalUsage` map: names in order of
first occurrence, without duplicates. -/
def uniqueKeys : List Str → List Str
  | [] => []
  | n :: rest => n :: ((uniqueKeys rest).filter (fun m => decide (m ≠ n)))

/-- `calculateGlobalProfit` of the profit calculator: `-Infinity` (modelled
`none`) below two occurrences, otherwise original cost minus declaration
and reference cost. -/
def calculateGlobalProfit (occurrences globalNameLength identifierLength : Nat)
    (isFirst : Bool) : Option Int :=
  if occurrences < 2 then none
  else
    let originalCost : Int := (occurrences : Int) * globalNameLength
    let declarationCost := getDeclarationCost globalNameLength identifierLength isFirst
    let referenceCost : Int := (occurrences : Int) * identifierLength
    let newCost := declarationCost + referenceCost
    some (originalCost - newCost)

/-- `profit > 0` on the extended profit domain. -/
def profitPos : Option Int → Bool
  | none => false
  | some p => p > 0

/-- The decision loop of `hoistGlobals`: walk the usage map in insertion
order, skip names with fewer than two references, and keep those with
positive profit (`isFirst` is true while no decision has been made). -/
def globalDecisionsGo (refs : List Str) : List Str → List (Str × Nat) → List (Str × Nat)
  | [], acc => acc
  | n :: rest, acc =>
    let cnt := countOf refs n
    if cnt < 2 then globalDecisionsGo refs rest acc
    else if profitPos (calculateGlobalProfit cnt n.length 1 acc.isEmpty) then
      globalDecisionsGo refs rest (acc ++ [(n, cnt)])
    else globalDecisionsGo refs rest acc

/-- The member-object references surviving the true-global and typeof
filters of `hoistGlobals`. -/
def hoistFiltered (globals : List Str) (prog : List JsExpr) : List Str :=
  (progCollect collectMemberObjs prog).filter
    (fun n => decide (n ∈ globals) &&
      !(decide (n ∈ progCollect collectTypeof prog)))

/-- The decision list of `hoistGlobals` before the final occurrence sort. -/
def hoistGlobalsDecisions (globals : List Str) (prog : List JsExpr) :
    List (Str × Nat) :=
  globalDecisionsGo (hoistFiltered globals prog)
    (uniqueKeys (hoistFiltered globals prog)) []

/-- `hoistGlobals`, reduced to its observable decision: the list of
`(global name, occurrence count)` pairs that are rewritten to placeholders
and prepended as one `const` declaration, in emission order.  The program
scope's globals map is an input (`scope.globals` in the source). -/
def hoistGlobalsM (globals : List Str) (prog : List JsExpr) : List (Str × Nat) :=
  if globals.isEmpty then []
  else (hoistGlobalsDecisions globals prog).mergeSort (fun a b => decide (b.2 ≤ a.2))

theorem mem_hoistGlobalsM (globals : List Str) (prog : List JsExpr) (g : Str) (n : Nat) :
    (g, n) ∈ hoistGlobalsM globals prog ↔
      globals.isEmpty = false ∧ (g, n) ∈ hoistGlobalsDecisions globals prog := by
  rw [hoistGlobalsM]
  by_cases hge : globals.isEmpty
  · rw [if_pos hge]
    simp [hge]
  · rw [if_neg hge]
    rw [(List.mergeSort_perm (hoistGlobalsDecisions globals prog)
      (fun a b => decide (b.2 ≤ a.2))).mem_iff]
    simp [Bool.eq_false_iff, hge]

theorem globalDecisionsGo_mem (refs : List Str) (keys : List Str)
    (acc : List (Str × Nat)) (g : Str) (n : Nat)
    (h : (g, n) ∈ globalDecisionsGo refs keys acc) :
    (g, n) ∈ acc ∨ (g ∈ keys ∧ n = countOf refs g ∧ 2 ≤ n) := by
  induction keys generalizing acc with
  | nil => exact Or.inl h
  | cons k rest ih =>
    rw [globalDecisionsGo] at h
    by_cases h2 : countOf refs k < 2
    · rw [if_pos h2] at h
      rcases ih _ h with h3 | h3
      · exact Or.inl h3
      · exact Or.inr ⟨List.mem_cons_of_mem _ h3.1, h3.2⟩
    · rw [if_neg h2] at h
      by_cases hpr : profitPos (calculateGlobalProfit (countOf refs k) k.length 1
          acc.isEmpty) = true
      · rw [if_pos hpr] at h
        rcases ih _ h with h3 | h3
        · rcases List.mem_append.1 h3 with h4 | h4
          · exact Or.inl h4
          · simp only [List.mem_singleton, Prod.mk.injEq] at h4
            obtain ⟨hgk, hnk⟩ := h4
            subst hgk
            refine Or.inr ⟨List.mem_cons_self _ _, hnk, by omega⟩
        · exact Or.inr ⟨List.mem_cons_of_mem _ h3.1, h3.2⟩
      · rw [if_neg hpr] at h
        rcases ih _ h with h3 | h3
        · exact Or.inl h3
        · exact Or.inr ⟨List.mem_cons_of_mem _ h3.1, h3.2⟩

theorem uniqueKeys_subset (l : List Str) (g : Str) (h : g ∈ uniqueKeys l) : g ∈ l := by
  induction l with
  | nil => exact absurd h (by simp [uniqueKeys])
  | cons k rest ih =>
    rw [uniqueKeys] at h
    rcases List.mem_cons.1 h with h1 | h1
    · exact h1 ▸ List.mem_cons_self _ _
    · exact List.mem_cons_of_mem _ (ih (List.mem_of_mem_filter h1))

theorem countOf_filter_eq (l : List Str) (p : Str → Bool) (g : Str)
    (hp : p g = true) : countOf (l.filter p) g = countOf l g := by
  rw [countOf, countOf, List.countP_filter]
  refine List.countP_congr ?_
  intro m _
  by_cases hm : m = g
  · subst hm
    simp [hp]
  · simp [hm]

theorem collectMemberObjs_not_reserved (e : JsExpr) :
    ∀ x ∈ collectMemberObjs e, x ∉ reservedKeywords := by
  induction e with
  | ident _ => intro x hx; exact absurd hx (by simp [collectMemberObjs])
  | strLit _ => intro x hx; exact absurd hx (by simp [collectMemberObjs])
  | typeofExpr a iha => intro x hx; exact iha x hx
  | member o c p iho ihp =>
    intro x hx
    rw [collectMemberObjs] at hx
    rcases List.mem_append.1 hx with h1 | h1
    · rcases List.mem_append.1 h1 with h4 | h4
      · exact objHead_not_reserved o x h4
      · exact iho x h4
    · exact ihp x h1

theorem progCollect_memberObjs_not_reserved (prog : List JsExpr) :
    ∀ x ∈ progCollect collectMemberObjs prog, x ∉ reservedKeywords := by
  induction prog with
  | nil => intro x hx; exact absurd hx (by simp [progCollect])
  | cons e rest ihr =>
    intro x hx
    rw [progCollect] at hx
    rcases List.mem_append.1 hx with h1 | h1
    · exact collectMemberObjs_not_reserved e x h1
    · exact ihr x h1

/-- C1 counterexample.  `XMLHttpRequest` is a recorded global appearing
exactly twice, both times as the object of a computed (bracket) member
access, never of a dot access — yet it is hoisted. -/
theorem claim1_counterexample :
    ("XMLHttpRequest".toList, 2) ∈
      hoistGlobalsM ["XMLHttpRequest".toList]
        [.member (.ident "XMLHttpRequest".toList) true (.strLit ['a']),
         .member (.ident "XMLHttpRequest".toList) true (.strLit ['b'])] ∧
    dotObjectCount
        [.member (.ident "XMLHttpRequest".toList) true (.strLit ['a']),
         .member (.ident "XMLHttpRequest".toList) true (.strLit ['b'])]
        "XMLHttpRequest".toList = 0 := by
  constructor
  · rw [mem_hoistGlobalsM]
    exact ⟨by decide, by decide⟩
  · decide

/-- C1 (amended).  A global `g` is hoisted only when `g` is recorded in the
program scope's globals map, `g` never appears anywhere as the operand of a
`typeof`, `g` is outside the contextual-keyword list, and `g` occurs at
least twice as the object of a member expression — dot or bracket access
alike (the source's `isMemberExpressionObject` does not inspect the
`computed` flag); in particular no identifier that is ever a `typeof`
argument is hoisted to a `const` binding. -/
theorem claim1_theorem (globals : List Str) (prog : List JsExpr) (g : Str) (n : Nat)
    (h : (g, n) ∈ hoistGlobalsM globals prog) :
    g ∈ globals ∧ g ∉ progCollect collectTypeof prog ∧ g ∉ reservedKeywords ∧
      n = memberObjectCount prog g ∧ 2 ≤ memberObjectCount prog g := by
  rw [mem_hoistGlobalsM] at h
  obtain ⟨-, h2⟩ := h
  rw [hoistGlobalsDecisions] at h2
  rcases globalDecisionsGo_mem _ _ _ _ _ h2 with h3 | h3
  · exact absurd h3 (by simp)
  · obtain ⟨hkey, hcnt, h2le⟩ := h3
    have hfil := uniqueKeys_subset _ _ hkey
    rw [hoistFiltered] at hfil
    have hpred := List.of_mem_filter hfil
    simp only [Bool.and_eq_true, Bool.not_eq_true', decide_eq_true_eq,
      decide_eq_false_iff_not] at hpred
    have hmem := List.mem_of_mem_filter hfil
    have hcnt2 : countOf (hoistFiltered globals prog) g =
        countOf (progCollect collectMemberObjs prog) g := by
      rw [hoistFiltered]
      refine countOf_filter_eq _ _ _ ?_
      simp only [Bool.and_eq_true, Bool.not_eq_true', decide_eq_true_eq,
        decide_eq_false_iff_not]
      exact hpred
    have hres : g ∉ reservedKeywords := progCollect_memberObjs_not_reserved prog g hmem
    refine ⟨hpred.1, hpred.2, hres, ?_, ?_⟩
    · rw [hcnt, memberObjectCount, hcnt2]
    · rw [memberObjectCount, ← hcnt2, ← hcnt]
      exact h2le

/-- C1 witness: a global with two dot accesses is hoisted and satisfies all
the amended conditions. -/
theorem claim1_witness :
    "XMLHttpRequest".toList ∈ ["XMLHttpRequest".toList] ∧
    "XMLHttpRequest".toList ∉
      progCollect collectTypeof
        [.member (.ident "XMLHttpRequest".toList) false (.strLit ['a']),
         .member (.ident "XMLHttpRequest".toList) false (.strLit ['b'])] ∧
    "XMLHttpRequest".toList ∉ reservedKeywords ∧
    2 = memberObjectCount
        [.member (.ident "XMLHttpRequest".toList) false (.strLit ['a']),
         .member (.ident "XMLHttpRequest".toList) false (.strLit ['b'])]
        "XMLHttpRequest".toList ∧
    2 ≤ memberObjectCount
        [.member (.ident "XMLHttpRequest".toList) false (.strLit ['a']),
         .member (.ident "XMLHttpRequest".toList) false (.strLit ['b'])]
        "XMLHttpRequest".toList :=
  claim1_theorem ["XMLHttpRequest".toList] _ "XMLHttpRequest".toList 2
    ((mem_hoistGlobalsM _ _ _ _).2 ⟨by decide, by decide⟩)

/-! ### The identifier mangler (mangleIdentifiers) -/

/-- A Babel `NodePath`: the identifier node it points at and the chain of
scope uids obtained by walking `path.scope` and then `.parent` upwards. -/
structure PathM where
  node : Nat
  scopeChain : List Nat
deriving DecidableEq

/-- A Babel binding: the declaring identifier node, the reference paths
(reads) and the constant violations (writes). -/
structure BindingM where
  identNode : Nat
  refs : List PathM
  viols : List PathM
deriving DecidableEq

/-- A scope: its uid and its own bindings (name, binding), in object order. -/
structure ScopeM where
  sid : Nat
  bindings : List (Str × BindingM)
deriving DecidableEq

/-- One entry of `scopeInfos`: a scope together with its parent chain
(nearest ancestor first), as walked by `scope.parent`. -/
structure ScopeInfoM where
  scope : ScopeM
  ancestors : List ScopeM
deriving DecidableEq

instance : Inhabited PathM := ⟨⟨0, []⟩⟩

instance : Inhabited BindingM := ⟨⟨0, [], []⟩⟩

instance : Inhabited ScopeM := ⟨⟨0, []⟩⟩

instance : Inhabited ScopeInfoM := ⟨⟨⟨0, []⟩, []⟩⟩

/-- `isInsideScope`: walk the path's scope chain upward looking for the
target scope. -/
def isInsideScope : List Nat → Nat → Bool
  | [], _ => false
  | s :: rest, target => if s = target then true else isInsideScope rest target

/-- The rename map, keyed by binding identity. -/
def rmLookup (rm : List (BindingM × Str)) (b : BindingM) : Option Str :=
  (rm.find? (fun p => decide (p.1 = b))).map Prod.snd

/-- `Set.prototype.add`. -/
def addName (acc : List Str) (n : Str) : List Str :=
  if n ∈ acc then acc else acc ++ [n]

/-- The binding has a reference or write lexically inside the scope `sid`
(or a descendant): the source's
`referencePaths.some(isInsideScope) || constantViolations.some(isInsideScope)`. -/
def bindingUsedIn (b : BindingM) (sid : Nat) : Bool :=
  b.refs.any (fun p => isInsideScope p.scopeChain sid) ||
    b.viols.any (fun p => isInsideScope p.scopeChain sid)

/-- Inner loop of `getReservedNamesForScope` over one ancestor's bindings:
reserve the new name of every renamed binding referenced inside the scope. -/
def reservedFromBindings (rm : List (BindingM × Str)) (sid : Nat) :
    List (Str × BindingM) → List Str → List Str
  | [], acc => acc
  | (_, b) :: rest, acc =>
    match rmLookup rm b with
    | none => reservedFromBindings rm sid rest acc
    | some newName =>
      if bindingUsedIn b sid then
        reservedFromBindings rm sid rest (addName acc newName)
      else reservedFromBindings rm sid rest acc

/-- `getReservedNamesForScope`: walk up the ancestor chain, collecting the
new names of outer bindings still visible through this scope. -/
def getReservedNamesForScope (rm : List (BindingM × Str)) (sid : Nat) :
    List ScopeM → List Str → List Str
  | [], acc => acc
  | a :: rest, acc =>
    getReservedNamesForScope rm sid rest (reservedFromBindings rm sid a.bindings acc)

/-- Total reference count of a binding: declaration plus reads plus writes. -/
def refCount (b : BindingM) : Nat := 1 + b.refs.length + b.viols.length

/-- One scope's assignment loop: rank bindings (already sorted) and hand
each the next generator name.  The generator fuel covers every name the
do/while loop could possibly skip (all reserved words plus the scope's
reserved set), so the structural bound is never reached. -/
def scopeAssign (bad : List Str) : List BindingM → Nat → List (BindingM × Str)
  | [], _ => []
  | b :: rest, idx =>
    let r := nextFree bad (reservedWords.length + bad.length + 1) idx
    (b, r.1) :: scopeAssign bad rest r.2

/-- The per-scope pass of `mangleIdentifiers`: compute the reserved set,
sort bindings by reference count (descending, stable), and extend the
rename map with freshly generated names starting at index 0. -/
def processScopes : List ScopeInfoM → List (BindingM × Str) → List (BindingM × Str)
  | [], rm => rm
  | info :: rest, rm =>
    let reserved := getReservedNamesForScope rm info.scope.sid info.ancestors []
    let sorted := (info.scope.bindings.mergeSort
      (fun x y => decide (refCount y.2 ≤ refCount x.2))).map Prod.snd
    let assigned := scopeAssign reserved sorted 0
    processScopes rest (rm ++ assigned)

/-- The AST as the mangler sees it: identifier nodes with their names. -/
abbrev AstM := List (Nat × Str)

def astLookup (ast : AstM) (nid : Nat) : Option Str :=
  (ast.find? (fun p => decide (p.1 = nid))).map Prod.snd

/-- The identifier nodes a binding's rename touches: the declaring
identifier, every reference and every write target. -/
def claimNodes (b : BindingM) : List Nat :=
  b.identNode :: (b.refs.map PathM.node ++ b.viols.map PathM.node)

def renameNodes (ast : AstM) (nodes : List Nat) (newName : Str) : AstM :=
  ast.map (fun p => if p.1 ∈ nodes then (p.1, newName) else p)

/-- The rename-application loop of `mangleIdentifiers`: for each mapped
binding set the declaring identifier, references and writes to the new
name, remembering `__niu_`-prefixed old names for the batch pass. -/
def applyRenames : List (BindingM × Str) → AstM → List (Str × Str) →
    AstM × List (Str × Str)
  | [], ast, ph => (ast, ph)
  | (b, newName) :: rest, ast, ph =>
    let oldName := (astLookup ast b.identNode).getD []
    let ast2 := renameNodes ast (claimNodes b) newName
    let ph2 := if startsNiu oldName then (oldName, newName) :: ph else ph
    applyRenames rest ast2 ph2

/-- The final batch traversal: replace any remaining occurrence of a
remembered placeholder name. -/
def batchRename (ph : List (Str × Str)) (ast : AstM) : AstM :=
  if ph.isEmpty then ast
  else
    ast.map (fun p =>
      match (ph.find? (fun q => decide (q.1 = p.2))).map Prod.snd with
      | some nn => (p.1, nn)
      | none => p)

/-- `mangleIdentifiers`, reduced to its effect on identifier names. -/
def mangleModel (infos : List ScopeInfoM) (ast : AstM) : AstM :=
  let rm := processScopes infos []
  let r := applyRenames rm ast []
  batchRename r.2 r.1

/-- All bindings of all collected scopes, in scope order. -/
def allBindings : List ScopeInfoM → List (Str × BindingM)
  | [] => []
  | info :: rest => info.scope.bindings ++ allBindings rest

/-- Total binding count of the ancestors of a scope. -/
def ancTotal (info : ScopeInfoM) : Nat :=
  (info.ancestors.map (fun a => a.bindings.length)).sum

theorem mem_addName (acc : List Str) (n x : Str) :
    x ∈ addName acc n ↔ x ∈ acc ∨ x = n := by
  rw [addName]
  by_cases h : n ∈ acc
  · rw [if_pos h]
    constructor
    · exact Or.inl
    · rintro (h1 | h1)
      · exact h1
      · exact h1 ▸ h
  · rw [if_neg h]
    simp

theorem mem_reservedFromBindings (rm : List (BindingM × Str)) (sid : Nat)
    (bs : List (Str × BindingM)) (acc : List Str) (x : Str) :
    x ∈ reservedFromBindings rm sid bs acc ↔
      x ∈ acc ∨ ∃ e ∈ bs, rmLookup rm e.2 = some x ∧ bindingUsedIn e.2 sid = true := by
  induction bs generalizing acc with
  | nil => simp [reservedFromBindings]
  | cons e rest ih =>
    obtain ⟨nm, b⟩ := e
    rw [reservedFromBindings]
    rcases hlk : rmLookup rm b with _ | newName
    · rw [ih]
      constructor
      · rintro (h1 | h1)
        · exact Or.inl h1
        · obtain ⟨f, hf, hlkf, hused⟩ := h1
          exact Or.inr ⟨f, List.mem_cons_of_mem _ hf, hlkf, hused⟩
      · rintro (h1 | h1)
        · exact Or.inl h1
        · obtain ⟨f, hf, hlkf, hused⟩ := h1
          rcases List.mem_cons.1 hf with hf1 | hf1
          · exfalso
            have hlkb : rmLookup rm b = some x := by rw [hf1] at hlkf; exact hlkf
            rw [hlk] at hlkb
            exact Option.noConfusion hlkb
          · exact Or.inr ⟨f, hf1, hlkf, hused⟩
    · dsimp only
      by_cases hused : bindingUsedIn b sid = true
      · rw [if_pos hused, ih]
        constructor
        · rintro (h1 | h1)
          · rcases (mem_addName _ _ _).1 h1 with h2 | h2
            · exact Or.inl h2
            · refine Or.inr ⟨(nm, b), List.mem_cons_self _ _, ?_, hused⟩
              show rmLookup rm b = some x
              rw [hlk, h2]
          · obtain ⟨f, hf, hlkf, husedf⟩ := h1
            exact Or.inr ⟨f, List.mem_cons_of_mem _ hf, hlkf, husedf⟩
        · rintro (h1 | h1)
          · exact Or.inl ((mem_addName _ _ _).2 (Or.inl h1))
          · obtain ⟨f, hf, hlkf, husedf⟩ := h1
            rcases List.mem_cons.1 hf with hf1 | hf1
            · refine Or.inl ((mem_addName _ _ _).2 (Or.inr ?_))
              have hlkb : rmLookup rm b = some x := by rw [hf1] at hlkf; exact hlkf
              rw [hlk] at hlkb
              exact (Option.some_inj.1 hlkb).symm
            · exact Or.inr ⟨f, hf1, hlkf, husedf⟩
      · rw [if_neg hused, ih]
        constructor
        · rintro (h1 | h1)
          · exact Or.inl h1
          · obtain ⟨f, hf, hlkf, husedf⟩ := h1
            exact Or.inr ⟨f, List.mem_cons_of_mem _ hf, hlkf, husedf⟩
        · rintro (h1 | h1)
          · exact Or.inl h1
          · obtain ⟨f, hf, hlkf, husedf⟩ := h1
            rcases List.mem_cons.1 hf with hf1 | hf1
            · exfalso
              have husedb : bindingUsedIn b sid = true := by
                rw [hf1] at husedf; exact husedf
              exact hused husedb
            · exact Or.inr ⟨f, hf1, hlkf, husedf⟩

theorem mem_getReservedNamesForScope (rm : List (BindingM × Str)) (sid : Nat)
    (ancestors : List ScopeM) (acc : List Str) (x : Str) :
    x ∈ getReservedNamesForScope rm sid ancestors acc ↔
      x ∈ acc ∨ ∃ A ∈ ancestors, ∃ e ∈ A.bindings,
        rmLookup rm e.2 = some x ∧ bindingUsedIn e.2 sid = true := by
  induction ancestors generalizing acc with
  | nil => simp [getReservedNamesForScope]
  | cons a rest ih =>
    rw [getReservedNamesForScope, ih, mem_reservedFromBindings]
    constructor
    · rintro ((h1 | h1) | h1)
      · exact Or.inl h1
      · obtain ⟨e, he, hp⟩ := h1
        exact Or.inr ⟨a, List.mem_cons_self _ _, e, he, hp⟩
      · obtain ⟨A, hA, e, he, hp⟩ := h1
        exact Or.inr ⟨A, List.mem_cons_of_mem _ hA, e, he, hp⟩
    · rintro (h1 | h1)
      · exact Or.inl (Or.inl h1)
      · obtain ⟨A, hA, e, he, hp⟩ := h1
        rcases List.mem_cons.1 hA with hA1 | hA1
        · exact Or.inl (Or.inr ⟨e, hA1 ▸ he, hp⟩)
        · exact Or.inr ⟨A, hA1, e, he, hp⟩

/-- C5.  When mangling a scope `S`, a name `n` is reserved iff some ancestor
scope of `S` contains a binding already renamed to `n` that has at least one
reference or write whose scope chain passes through `S` — i.e. that lies
lexically inside `S` or a descendant of `S`. -/
theorem claim5_theorem (rm : List (BindingM × Str)) (info : ScopeInfoM) (n : Str) :
    n ∈ getReservedNamesForScope rm info.scope.sid info.ancestors [] ↔
      ∃ A ∈ info.ancestors, ∃ e ∈ A.bindings,
        rmLookup rm e.2 = some n ∧
        ((∃ p ∈ e.2.refs, isInsideScope p.scopeChain info.scope.sid = true) ∨
         (∃ p ∈ e.2.viols, isInsideScope p.scopeChain info.scope.sid = true)) := by
  rw [mem_getReservedNamesForScope]
  simp only [List.not_mem_nil, false_or]
  constructor
  · rintro ⟨A, hA, e, he, hlk, hused⟩
    refine ⟨A, hA, e, he, hlk, ?_⟩
    rw [bindingUsedIn, Bool.or_eq_true, List.any_eq_true, List.any_eq_true] at hused
    exact hused
  · rintro ⟨A, hA, e, he, hlk, hused⟩
    refine ⟨A, hA, e, he, hlk, ?_⟩
    rw [bindingUsedIn, Bool.or_eq_true, List.any_eq_true, List.any_eq_true]
    exact hused

/-- C5 witness: a two-scope chain where the ancestor's binding is renamed to
`e` and referenced from inside the child scope, so `e` is reserved there. -/
theorem claim5_witness :
    (['e'] : Str) ∈
      getReservedNamesForScope
        [(⟨10, [⟨11, [2, 1, 0]⟩], []⟩, ['e'])]
        (ScopeInfoM.mk ⟨2, []⟩ [⟨1, [("outer".toList, ⟨10, [⟨11, [2, 1, 0]⟩], []⟩)]⟩, ⟨0, []⟩]).scope.sid
        (ScopeInfoM.mk ⟨2, []⟩ [⟨1, [("outer".toList, ⟨10, [⟨11, [2, 1, 0]⟩], []⟩)]⟩, ⟨0, []⟩]).ancestors
        [] :=
  (claim5_theorem _ (ScopeInfoM.mk ⟨2, []⟩
      [⟨1, [("outer".toList, ⟨10, [⟨11, [2, 1, 0]⟩], []⟩)]⟩, ⟨0, []⟩]) ['e']).2
    ⟨⟨1, [("outer".toList, ⟨10, [⟨11, [2, 1, 0]⟩], []⟩)]⟩, by decide,
     ("outer".toList, ⟨10, [⟨11, [2, 1, 0]⟩], []⟩), by decide, by decide,
     Or.inl ⟨⟨11, [2, 1, 0]⟩, by decide, by decide⟩⟩

theorem scopeAssign_fst (bad : List Str) (bs : List BindingM) (idx : Nat) :
    (scopeAssign bad bs idx).map Prod.fst = bs := by
  induction bs generalizing idx with
  | nil => rfl
  | cons b rest ih =>
    rw [scopeAssign]
    simp only [List.map_cons]
    rw [ih]

theorem scopeAssign_names (bad : List Str) (bs : List BindingM) (idx : Nat) :
    ∀ e ∈ scopeAssign bad bs idx,
      ∃ j, e.2 = indexToName j ∧
        j < idx + bs.length * (reservedWords.length + bad.length + 2) := by
  induction bs generalizing idx with
  | nil => intro e he; exact absurd he (by simp [scopeAssign])
  | cons b rest ih =>
    intro e he
    rw [scopeAssign] at he
    obtain ⟨j, hj, hle, hub⟩ :=
      nextFree_spec bad (reservedWords.length + bad.length + 1) idx
    rcases List.mem_cons.1 he with h1 | h1
    · refine ⟨j, ?_, ?_⟩
      · rw [h1, hj]
      · have : 1 ≤ (rest.length + 1) := by omega
        have hmul : 1 * (reservedWords.length + bad.length + 2) ≤
            (rest.length + 1) * (reservedWords.length + bad.length + 2) :=
          Nat.mul_le_mul_right _ this
        simp only [List.length_cons]
        omega
    · rw [hj] at h1
      obtain ⟨j2, hj2, hub2⟩ := ih (j + 1) e h1
      refine ⟨j2, hj2, ?_⟩
      simp only [List.length_cons]
      have : (rest.length + 1) * (reservedWords.length + bad.length + 2) =
          rest.length * (reservedWords.length + bad.length + 2) +
            (reservedWords.length + bad.length + 2) := by ring
      omega

theorem addName_len (acc : List Str) (n : Str) :
    (addName acc n).length ≤ acc.length + 1 := by
  rw [addName]
  by_cases h : n ∈ acc
  · rw [if_pos h]; omega
  · rw [if_neg h]; simp

theorem reservedFromBindings_len (rm : List (BindingM × Str)) (sid : Nat)
    (bs : List (Str × BindingM)) (acc : List Str) :
    (reservedFromBindings rm sid bs acc).length ≤ acc.length + bs.length := by
  induction bs generalizing acc with
  | nil => simp [reservedFromBindings]
  | cons e rest ih =>
    obtain ⟨nm, b⟩ := e
    rw [reservedFromBindings]
    rcases rmLookup rm b with _ | newName
    · have := ih acc
      simp only [List.length_cons]
      omega
    · dsimp only
      by_cases hused : bindingUsedIn b sid = true
      · rw [if_pos hused]
        have h1 := ih (addName acc newName)
        have h2 := addName_len acc newName
        simp only [List.length_cons]
        omega
      · rw [if_neg hused]
        have := ih acc
        simp only [List.length_cons]
        omega

theorem getReserved_len (rm : List (BindingM × Str)) (sid : Nat)
    (ancestors : List ScopeM) (acc : List Str) :
    (getReservedNamesForScope rm sid ancestors acc).length ≤
      acc.length + (ancestors.map (fun a => a.bindings.length)).sum := by
  induction ancestors generalizing acc with
  | nil => simp [getReservedNamesForScope]
  | cons a rest ih =>
    rw [getReservedNamesForScope]
    have h1 := ih (reservedFromBindings rm sid a.bindings acc)
    have h2 := reservedFromBindings_len rm sid a.bindings acc
    simp only [List.map_cons, List.sum_cons]
    omega

theorem processScopes_clean (infos : List ScopeInfoM) (rm0 : List (BindingM × Str))
    (h0 : ∀ e ∈ rm0, containsNiu e.2 = false)
    (hsize : ∀ info ∈ infos,
      info.scope.bindings.length * (reservedWords.length + ancTotal info + 2) ≤
        467828514) :
    ∀ e ∈ processScopes infos rm0, containsNiu e.2 = false := by
  induction infos generalizing rm0 with
  | nil => exact h0
  | cons info rest ih =>
    rw [processScopes]
    refine ih _ ?_ (fun i hi => hsize i (List.mem_cons_of_mem _ hi))
    intro e he
    rcases List.mem_append.1 he with h1 | h1
    · exact h0 e h1
    · obtain ⟨j, hj, hub⟩ := scopeAssign_names _ _ _ e h1
      have hsorted : ((info.scope.bindings.mergeSort
          (fun x y => decide (refCount y.2 ≤ refCount x.2))).map Prod.snd).length =
          info.scope.bindings.length := by
        rw [List.length_map]
        exact (List.mergeSort_perm _ _).length_eq
      have hresv := getReserved_len rm0 info.scope.sid info.ancestors []
      simp only [List.length_nil, Nat.zero_add] at hresv
      have hj5 : j < 467828514 := by
        have hone := hsize info (List.mem_cons_self _ _)
        rw [ancTotal] at hone
        have hmono : info.scope.bindings.length *
            (reservedWords.length +
              (getReservedNamesForScope rm0 info.scope.sid info.ancestors []).length
              + 2) ≤
            info.scope.bindings.length *
              (reservedWords.length +
                (info.ancestors.map (fun a => a.bindings.length)).sum + 2) :=
          Nat.mul_le_mul_left _ (by omega)
        rw [hsorted] at hub
        omega
      rw [hj]
      exact containsNiu_short (by
        have := indexToName_length_le_five j hj5
        omega)

/-- Two bindings touch disjoint sets of identifier nodes. -/
def nodesDisjoint (b1 b2 : BindingM) : Prop :=
  ∀ x ∈ claimNodes b1, x ∉ claimNodes b2

theorem nodesDisjoint_symm : Symmetric nodesDisjoint := by
  intro b1 b2 h x hx2 hx1
  exact h x hx1 hx2

theorem processScopes_fst_perm (infos : List ScopeInfoM) (rm0 : List (BindingM × Str)) :
    List.Perm ((processScopes infos rm0).map Prod.fst)
      (rm0.map Prod.fst ++ (allBindings infos).map Prod.snd) := by
  induction infos generalizing rm0 with
  | nil =>
    rw [processScopes, allBindings]
    simp
  | cons info rest ih =>
    rw [processScopes, allBindings]
    refine (ih _).trans ?_
    rw [List.map_append, List.map_append]
    rw [scopeAssign_fst]
    have hsortperm : List.Perm
        ((info.scope.bindings.mergeSort
          (fun x y => decide (refCount y.2 ≤ refCount x.2))).map Prod.snd)
        (info.scope.bindings.map Prod.snd) :=
      (List.mergeSort_perm _ _).map _
    refine (List.Perm.append_right _ ((List.Perm.append_left _ hsortperm))).trans ?_
    rw [List.append_assoc]

theorem renameNodes_mem (ast : AstM) (nodes : List Nat) (nm : Str) :
    ∀ p ∈ renameNodes ast nodes nm, p.2 = nm ∨ p ∈ ast := by
  intro p hp
  rw [renameNodes] at hp
  obtain ⟨q, hq, hpq⟩ := List.mem_map.1 hp
  by_cases h : q.1 ∈ nodes
  · rw [if_pos h] at hpq
    exact Or.inl (by rw [← hpq])
  · rw [if_neg h] at hpq
    exact Or.inr (hpq ▸ hq)

theorem astLookup_renameNodes (ast : AstM) (nodes : List Nat) (nm : Str) (nid : Nat)
    (h : nid ∉ nodes) :
    astLookup (renameNodes ast nodes nm) nid = astLookup ast nid := by
  induction ast with
  | nil => rfl
  | cons p rest ih =>
    rw [renameNodes, List.map_cons]
    by_cases heq : p.1 = nid
    · have hpm : p.1 ∉ nodes := by rw [heq]; exact h
      rw [if_neg hpm]
      rw [astLookup, astLookup]
      rw [List.find?_cons_of_pos _ (by simp [heq]),
        List.find?_cons_of_pos _ (by simp [heq])]
    · by_cases hc : p.1 ∈ nodes
      · rw [if_pos hc]
        rw [astLookup, astLookup]
        rw [List.find?_cons_of_neg _ (by simp [heq]),
          List.find?_cons_of_neg _ (by simp [heq])]
        exact ih
      · rw [if_neg hc]
        rw [astLookup, astLookup]
        rw [List.find?_cons_of_neg _ (by simp [heq]),
          List.find?_cons_of_neg _ (by simp [heq])]
        exact ih

theorem applyRenames_ph_mono (rm : List (BindingM × Str)) (ast : AstM)
    (ph0 : List (Str × Str)) :
    ∀ x ∈ ph0, x ∈ (applyRenames rm ast ph0).2 := by
  induction rm generalizing ast ph0 with
  | nil => intro x hx; exact hx
  | cons e rest ih =>
    intro x hx
    obtain ⟨b, newName⟩ := e
    rw [applyRenames]
    refine ih _ _ x ?_
    by_cases hniu : startsNiu ((astLookup ast b.identNode).getD []) = true
    · rw [if_pos hniu]
      exact List.mem_cons_of_mem _ hx
    · rw [if_neg hniu]
      exact hx

theorem applyRenames_ph_mem (rm : List (BindingM × Str)) (ast : AstM)
    (ph0 : List (Str × Str)) :
    ∀ x ∈ (applyRenames rm ast ph0).2,
      x ∈ ph0 ∨ (startsNiu x.1 = true ∧ ∃ b, (b, x.2) ∈ rm) := by
  induction rm generalizing ast ph0 with
  | nil => intro x hx; exact Or.inl hx
  | cons e rest ih =>
    intro x hx
    obtain ⟨b, newName⟩ := e
    rw [applyRenames] at hx
    rcases ih _ _ x hx with h1 | h1
    · by_cases hniu : startsNiu ((astLookup ast b.identNode).getD []) = true
      · rw [if_pos hniu] at h1
        rcases List.mem_cons.1 h1 with h2 | h2
        · refine Or.inr ⟨?_, b, ?_⟩
          · rw [h2]
            exact hniu
          · rw [h2]
            exact List.mem_cons_self _ _
        · exact Or.inl h2
      · rw [if_neg hniu] at h1
        exact Or.inl h1
    · obtain ⟨hniu, b2, hb2⟩ := h1
      exact Or.inr ⟨hniu, b2, List.mem_cons_of_mem _ hb2⟩

theorem applyRenames_ast_mem (rm : List (BindingM × Str)) (ast : AstM)
    (ph0 : List (Str × Str)) :
    ∀ p ∈ (applyRenames rm ast ph0).1,
      (∃ e ∈ rm, p.2 = e.2) ∨ p ∈ ast := by
  induction rm generalizing ast ph0 with
  | nil => intro p hp; exact Or.inr hp
  | cons e rest ih =>
    intro p hp
    obtain ⟨b, newName⟩ := e
    rw [applyRenames] at hp
    rcases ih _ _ p hp with h1 | h1
    · obtain ⟨f, hf, hpf⟩ := h1
      exact Or.inl ⟨f, List.mem_cons_of_mem _ hf, hpf⟩
    · rcases renameNodes_mem _ _ _ p h1 with h2 | h2
      · exact Or.inl ⟨(b, newName), List.mem_cons_self _ _, h2⟩
      · exact Or.inr h2

theorem applyRenames_ph_covers (rm : List (BindingM × Str)) (ast : AstM)
    (ph0 : List (Str × Str)) (b : BindingM) (nm bn : Str)
    (hmem : (b, nm) ∈ rm)
    (hlook : astLookup ast b.identNode = some bn)
    (hniu : startsNiu bn = true)
    (hpair : rm.Pairwise (fun e1 e2 => nodesDisjoint e1.1 e2.1)) :
    ∃ v, (bn, v) ∈ (applyRenames rm ast ph0).2 := by
  induction rm generalizing ast ph0 with
  | nil => exact absurd hmem (by simp)
  | cons e rest ih =>
    obtain ⟨b1, newName⟩ := e
    rw [applyRenames]
    rcases List.mem_cons.1 hmem with h1 | h1
    · have hb : b1 = b := (Prod.mk.injEq .. ▸ h1.symm).1
      subst hb
      rw [hlook]
      simp only [Option.getD_some]
      rw [if_pos hniu]
      exact ⟨newName, applyRenames_ph_mono _ _ _ _ (List.mem_cons_self _ _)⟩
    · have hdis : nodesDisjoint b1 b := by
        have := (List.pairwise_cons.1 hpair).1 (b, nm) h1
        exact this
      have hnid : b.identNode ∉ claimNodes b1 := by
        intro hcontra
        exact hdis b.identNode hcontra (by rw [claimNodes]; exact List.mem_cons_self _ _)
      have hlook2 : astLookup (renameNodes ast (claimNodes b1) newName) b.identNode =
          some bn := by
        rw [astLookup_renameNodes _ _ _ _ hnid]
        exact hlook
      exact ih _ _ h1 hlook2 (List.pairwise_cons.1 hpair).2

/-- C4 counterexample.  An input program containing a free identifier named
`__niu_evil` (never a binding, as for any free global) passes through the
mangler unchanged, so the output still contains the string `__niu_`. -/
theorem claim4_counterexample :
    mangleModel [] [(0, "__niu_evil".toList)] = [(0, "__niu_evil".toList)] ∧
    containsNiu "__niu_evil".toList = true := by decide

/-- C4 (amended).  After `mangleIdentifiers`, no identifier name contains
`__niu_`, provided that (a) every identifier whose name contains `__niu_`
is a `__niu_`-prefixed binding name — as the hoisting passes, the only
intended source of such names, guarantee — (b) distinct bindings touch
disjoint node sets, with the declaring node carrying the binding's name,
and (c) every scope is small enough that the name generator stays below
index 467828514, the range in which all generated names have at most five
characters and hence cannot contain the six-character marker. -/
theorem claim4_theorem (infos : List ScopeInfoM) (ast : AstM)
    (hdisj : ((allBindings infos).map Prod.snd).Pairwise nodesDisjoint)
    (hast : ∀ p ∈ ast, containsNiu p.2 = true →
      ∃ e ∈ allBindings infos, e.1 = p.2 ∧ startsNiu p.2 = true)
    (hid : ∀ e ∈ allBindings infos, astLookup ast e.2.identNode = some e.1)
    (hsize : ∀ info ∈ infos,
      info.scope.bindings.length * (reservedWords.length + ancTotal info + 2) ≤
        467828514) :
    ∀ p ∈ mangleModel infos ast, containsNiu p.2 = false := by
  intro p hp
  rw [mangleModel] at hp
  have hclean : ∀ e ∈ processScopes infos [], containsNiu e.2 = false :=
    processScopes_clean infos [] (by simp) hsize
  have hperm : List.Perm ((processScopes infos []).map Prod.fst)
      ((allBindings infos).map Prod.snd) := by
    have := processScopes_fst_perm infos []
    simpa using this
  have hpair : (processScopes infos []).Pairwise
      (fun e1 e2 => nodesDisjoint e1.1 e2.1) := by
    have h1 : ((processScopes infos []).map Prod.fst).Pairwise nodesDisjoint :=
      (hperm.pairwise_iff (fun h => nodesDisjoint_symm h)).2 hdisj
    exact (List.pairwise_map).1 h1
  have hphkeys : ∀ x ∈ (applyRenames (processScopes infos []) ast []).2,
      startsNiu x.1 = true ∧ ∃ b, (b, x.2) ∈ processScopes infos [] := by
    intro x hx
    rcases applyRenames_ph_mem _ ast [] x hx with h1 | h1
    · exact absurd h1 (by simp)
    · exact h1
  have hcover : ∀ q ∈ ast, containsNiu q.2 = true →
      ∃ v, (q.2, v) ∈ (applyRenames (processScopes infos []) ast []).2 := by
    intro q hq hdq
    obtain ⟨e, he, heq, hsn⟩ := hast q hq hdq
    have hm : e.2 ∈ (processScopes infos []).map Prod.fst :=
      hperm.mem_iff.2 (List.mem_map_of_mem _ he)
    obtain ⟨entry, hentry, hefst⟩ := List.mem_map.1 hm
    have hlook : astLookup ast entry.1.identNode = some q.2 := by
      rw [hefst, hid e he, heq]
    have hentry2 : (entry.1, entry.2) ∈ processScopes infos [] := by
      rw [Prod.mk.eta]
      exact hentry
    exact applyRenames_ph_covers _ ast [] entry.1 entry.2 q.2 hentry2 hlook
      (heq ▸ hsn) hpair
  rw [batchRename] at hp
  by_cases hempty : (applyRenames (processScopes infos []) ast []).2.isEmpty = true
  · rw [if_pos hempty] at hp
    rcases applyRenames_ast_mem _ ast [] p hp with h1 | h1
    · obtain ⟨e, he, hpe⟩ := h1
      rw [hpe]
      exact hclean e he
    · by_contra hdirty
      have hd : containsNiu p.2 = true := by
        revert hdirty
        cases containsNiu p.2 <;> simp
      obtain ⟨v, hv⟩ := hcover p h1 hd
      rw [List.isEmpty_iff] at hempty
      rw [hempty] at hv
      exact absurd hv (by simp)
  · rw [if_neg hempty] at hp
    obtain ⟨q, hq, hpq⟩ := List.mem_map.1 hp
    rcases hfind : ((applyRenames (processScopes infos []) ast []).2.find?
        (fun r2 => decide (r2.1 = q.2))).map Prod.snd with _ | nn
    · rw [hfind] at hpq
      have hqp : q = p := hpq
      rcases applyRenames_ast_mem _ ast [] q hq with h1 | h1
      · obtain ⟨e, he, hqe⟩ := h1
        rw [← hqp, hqe]
        exact hclean e he
      · by_contra hdirty
        have hd : containsNiu q.2 = true := by
          rw [hqp]
          revert hdirty
          cases containsNiu p.2 <;> simp
        obtain ⟨v, hv⟩ := hcover q h1 hd
        have hnone : (applyRenames (processScopes infos []) ast []).2.find?
            (fun r2 => decide (r2.1 = q.2)) = none := by
          rcases hf2 : (applyRenames (processScopes infos []) ast []).2.find?
              (fun r2 => decide (r2.1 = q.2)) with _ | entry
          · exact hf2
          · rw [hf2] at hfind
            exact absurd hfind (by simp)
        have := List.find?_eq_none.1 hnone (q.2, v) hv
        simp at this
    · rw [hfind] at hpq
      have hqp : (q.1, nn) = p := hpq
      obtain ⟨entry, hf2, hsnd⟩ := Option.map_eq_some'.1 hfind
      have hmem := List.mem_of_find?_eq_some hf2
      obtain ⟨-, b, hb⟩ := hphkeys entry hmem
      rw [← hqp]
      have : containsNiu nn = false := by
        rw [← hsnd]
        exact hclean (b, entry.2) hb
      exact this

/-- C4 witness: with no scopes and a clean one-identifier program the
mangled output contains no `__niu_`. -/
theorem claim4_witness : containsNiu (['x'] : Str) = false :=
  claim4_theorem [] [(0, ['x'])] List.Pairwise.nil (by decide) (by decide)
    (by decide) (0, ['x']) (by decide)

/-- The first generated name containing the placeholder marker appears only
at index 25254881891; the amended no-leak bound for C4 is real. -/
theorem indexToName_niuMark :
    indexToName 25254881891 = niuMark ∧ containsNiu niuMark = true := by decide

/-! ### The first-declaration gate of hoistDuplicateLiterals (C6) -/

/-- A selected string candidate as the decision loop sees it: its value,
its effective occurrence count and its selective profit (selected
candidates all have finite profit, above `-2`). -/
structure CandM where
  value : Str
  effOcc : Nat
  profit : Int
deriving DecidableEq

instance : Inhabited CandM := ⟨⟨[], 0, 0⟩⟩

/-- The selection loop over the sorted candidates: while no decision has
been made (`isFirst`), a candidate failing `profit - 5 > 0` is skipped —
remembered in `skippedAsFirst` when its own profit is positive, dropped
otherwise; every later candidate is accepted unconditionally. -/
def firstGateGo : List CandM → List CandM → List CandM → List CandM × List CandM
  | [], acc, skipped => (acc, skipped)
  | c :: rest, acc, skipped =>
    if acc.isEmpty then
      if c.profit - 5 ≤ 0 then
        if c.profit > 0 then firstGateGo rest acc (skipped ++ [c])
        else firstGateGo rest acc skipped
      else firstGateGo rest (acc ++ [c]) skipped
    else firstGateGo rest (acc ++ [c]) skipped

/-- The loop started with empty decision and skip lists: returns the
accepted decisions and the candidates skipped for the first slot. -/
def firstGateLoop (cands : List CandM) : List CandM × List CandM :=
  firstGateGo cands [] []

/-- The final decision list: when at least one candidate was accepted the
skipped ones are re-appended and everything is re-sorted by effective
occurrences descending; otherwise nothing is emitted. -/
def finalDecisions (cands : List CandM) : List CandM :=
  let r := firstGateLoop cands
  if r.1.isEmpty then r.1
  else (r.1 ++ r.2).mergeSort (fun a b => decide (b.effOcc ≤ a.effOcc))

theorem firstGateGo_spec (l : List CandM) :
    ∀ acc skipped,
      (∀ c, (firstGateGo l acc skipped).1.head? = some c →
        acc.head? = some c ∨ (acc = [] ∧ 0 < c.profit - 5)) ∧
      (∀ c ∈ (firstGateGo l acc skipped).2,
        c ∈ skipped ∨ (0 < c.profit ∧ c.profit ≤ 5)) ∧
      (∀ c ∈ (firstGateGo l acc skipped).1, c ∈ acc ∨ c ∈ l) ∧
      (∀ c ∈ (firstGateGo l acc skipped).2, c ∈ skipped ∨ c ∈ l) := by
  induction l with
  | nil =>
    intro acc skipped
    exact ⟨fun c hc => Or.inl hc, fun c hc => Or.inl hc,
      fun c hc => Or.inl hc, fun c hc => Or.inl hc⟩
  | cons d rest ih =>
    intro acc skipped
    rw [firstGateGo]
    by_cases hacc : acc.isEmpty = true
    · rw [if_pos hacc]
      have haccnil : acc = [] := List.isEmpty_iff.1 hacc
      by_cases hgate : d.profit - 5 ≤ 0
      · rw [if_pos hgate]
        by_cases hpos : d.profit > 0
        · rw [if_pos hpos]
          obtain ⟨ih1, ih2, ih3, ih4⟩ := ih acc (skipped ++ [d])
          refine ⟨ih1, ?_, ?_, ?_⟩
          · intro c hc
            rcases ih2 c hc with h1 | h1
            · rcases List.mem_append.1 h1 with h2 | h2
              · exact Or.inl h2
              · simp only [List.mem_singleton] at h2
                subst h2
                exact Or.inr ⟨hpos, by omega⟩
            · exact Or.inr h1
          · intro c hc
            rcases ih3 c hc with h1 | h1
            · exact Or.inl h1
            · exact Or.inr (List.mem_cons_of_mem _ h1)
          · intro c hc
            rcases ih4 c hc with h1 | h1
            · rcases List.mem_append.1 h1 with h2 | h2
              · exact Or.inl h2
              · simp only [List.mem_singleton] at h2
                exact Or.inr (h2 ▸ List.mem_cons_self _ _)
            · exact Or.inr (List.mem_cons_of_mem _ h1)
        · rw [if_neg hpos]
          obtain ⟨ih1, ih2, ih3, ih4⟩ := ih acc skipped
          refine ⟨ih1, ih2, ?_, ?_⟩
          · intro c hc
            rcases ih3 c hc with h1 | h1
            · exact Or.inl h1
            · exact Or.inr (List.mem_cons_of_mem _ h1)
          · intro c hc
            rcases ih4 c hc with h1 | h1
            · exact Or.inl h1
            · exact Or.inr (List.mem_cons_of_mem _ h1)
      · rw [if_neg hgate]
        obtain ⟨ih1, ih2, ih3, ih4⟩ := ih (acc ++ [d]) skipped
        refine ⟨?_, ih2, ?_, ?_⟩
        · intro c hc
          rcases ih1 c hc with h1 | h1
          · rw [haccnil] at h1
            simp only [List.nil_append, List.head?_cons, Option.some_inj] at h1
            subst h1
            exact Or.inr ⟨haccnil, by omega⟩
          · exact absurd h1.1 (by simp)
        · intro c hc
          rcases ih3 c hc with h1 | h1
          · rcases List.mem_append.1 h1 with h2 | h2
            · exact Or.inl h2
            · simp only [List.mem_singleton] at h2
              exact Or.inr (h2 ▸ List.mem_cons_self _ _)
          · exact Or.inr (List.mem_cons_of_mem _ h1)
        · intro c hc
          rcases ih4 c hc with h1 | h1
          · exact Or.inl h1
          · exact Or.inr (List.mem_cons_of_mem _ h1)
    · rw [if_neg hacc]
      obtain ⟨ih1, ih2, ih3, ih4⟩ := ih (acc ++ [d]) skipped
      refine ⟨?_, ih2, ?_, ?_⟩
      · intro c hc
        rcases ih1 c hc with h1 | h1
        · rw [List.head?_append_of_ne_nil] at h1
          · exact Or.inl h1
          · intro hnil
            rw [hnil] at hacc
            exact hacc rfl
        · exact absurd h1.1 (by simp)
      · intro c hc
        rcases ih3 c hc with h1 | h1
        · rcases List.mem_append.1 h1 with h2 | h2
          · exact Or.inl h2
          · simp only [List.mem_singleton] at h2
            exact Or.inr (h2 ▸ List.mem_cons_self _ _)
        · exact Or.inr (List.mem_cons_of_mem _ h1)
      · intro c hc
        rcases ih4 c hc with h1 | h1
        · exact Or.inl h1
        · exact Or.inr (List.mem_cons_of_mem _ h1)

/-- C6.  The first candidate actually accepted satisfies `profit - 5 > 0`;
gate-failing candidates are skipped for the first slot (the loop moves on),
and exactly the skipped candidates with strictly positive profit (which is
then at most 5) are re-appended once some first candidate was accepted; if
no candidate was ever accepted, nothing is emitted and the skipped
candidates are dropped. -/
theorem claim6_theorem (cands : List CandM) :
    (∀ c, (firstGateLoop cands).1.head? = some c → 0 < c.profit - 5) ∧
    (∀ c ∈ (firstGateLoop cands).2, 0 < c.profit ∧ c.profit ≤ 5) ∧
    (∀ c ∈ (firstGateLoop cands).1, c ∈ cands) ∧
    (∀ c ∈ (firstGateLoop cands).2, c ∈ cands) ∧
    ((firstGateLoop cands).1 ≠ [] →
      List.Perm (finalDecisions cands)
        ((firstGateLoop cands).1 ++ (firstGateLoop cands).2)) ∧
    ((firstGateLoop cands).1 = [] → finalDecisions cands = []) := by
  obtain ⟨h1, h2, h3, h4⟩ := firstGateGo_spec cands [] []
  refine ⟨?_, ?_, ?_, ?_, ?_, ?_⟩
  · intro c hc
    rcases h1 c hc with ha | ha
    · exact absurd ha (by simp)
    · exact ha.2
  · intro c hc
    rcases h2 c hc with ha | ha
    · exact absurd ha (by simp)
    · exact ha
  · intro c hc
    rcases h3 c hc with ha | ha
    · exact absurd ha (by simp)
    · exact ha
  · intro c hc
    rcases h4 c hc with ha | ha
    · exact absurd ha (by simp)
    · exact ha
  · intro hne
    rw [finalDecisions]
    rw [if_neg (by
      intro hcontra
      exact hne (List.isEmpty_iff.1 hcontra))]
    exact List.mergeSort_perm _ _
  · intro hnil
    rw [finalDecisions, if_pos (by rw [hnil]; rfl)]
    exact hnil

/-- C6 witness: with a first candidate of profit 7 (passing the gate) and a
second of profit 3, both are accepted, nothing is skipped, and the final
decisions are a permutation of the two. -/
theorem claim6_witness :
    (0 : Int) < 7 - 5 ∧
    List.Perm (finalDecisions [⟨['a'], 3, 7⟩, ⟨['b'], 2, 3⟩])
      ((firstGateLoop [⟨['a'], 3, 7⟩, ⟨['b'], 2, 3⟩]).1 ++
        (firstGateLoop [⟨['a'], 3, 7⟩, ⟨['b'], 2, 3⟩]).2) := by
  have h := claim6_theorem [⟨['a'], 3, 7⟩, ⟨['b'], 2, 3⟩]
  refine ⟨?_, h.2.2.2.2.1 (by decide)⟩
  exact h.1 ⟨['a'], 3, 7⟩ (by decide)

end Niu
